import Mathlib

set_option maxHeartbeats 1000000

/-!
Verification of the dendrogram data structure and its two flattening
algorithms from `in_memory/clustering/parallel_dendrogram.h`.

The C++ source is shallowly embedded: the parallel loops of the source are
modelled as sequential folds over the same index ranges (the source documents
the races on the union-find structure as benign, i.e. the final partition is
that of the sequential execution), machine floats are modelled as rationals,
and the two fatal-check operations are modelled as `Option`-returning
functions.
-/

/-- Sentinel for a missing parent pointer: `std::numeric_limits<NodeId>::max()`
where `NodeId` is the 32-bit id type of the source; node ids are modelled
as natural numbers. -/
def kInvalidClusterId : Nat := 2 ^ 32 - 1

/-- An edge from a child cluster to a parent cluster with a similarity,
default-constructed as an invalid pointer with similarity 0. -/
structure ParentEdge where
  parent_id : Nat := kInvalidClusterId
  merge_similarity : ℚ := 0
deriving DecidableEq

instance : Inhabited ParentEdge := ⟨{}⟩

/-- The dendrogram: the number of base nodes plus the dense array of parent
pointers (one slot per id in `[0, 2 * num_nodes - 1)`). -/
structure ParallelDendrogram where
  num_nodes : Nat
  parent_pointers : List ParentEdge
deriving DecidableEq

def ParallelDendrogram.MaxClusterId (d : ParallelDendrogram) : Nat :=
  2 * d.num_nodes - 1

def ParallelDendrogram.GetParent (d : ParallelDendrogram) (node_id : Nat) : ParentEdge :=
  d.parent_pointers.getD node_id default

def ParallelDendrogram.HasValidParent (d : ParallelDendrogram) (node_id : Nat) : Bool :=
  (d.GetParent node_id).parent_id != kInvalidClusterId

/-- MergeToParent: `ABSL_CHECK_EQ(parent_pointers_[child].parent_id,
kInvalidClusterId); parent_pointers_[child] = {parent, similarity};`.
The fatal check is modelled as returning `none`. -/
def ParallelDendrogram.MergeToParent (d : ParallelDendrogram) (child parent : Nat)
    (similarity : ℚ) : Option ParallelDendrogram :=
  if (d.GetParent child).parent_id = kInvalidClusterId then
    some { d with parent_pointers := d.parent_pointers.set child ⟨parent, similarity⟩ }
  else none

/-- Shorthand for the parent id stored at a slot. -/
def stepOf (d : ParallelDendrogram) (i : Nat) : Nat :=
  (d.GetParent i).parent_id

/-- Shorthand for the similarity stored at a slot. -/
def simOf (d : ParallelDendrogram) (i : Nat) : ℚ :=
  (d.GetParent i).merge_similarity

/-- Modelled from the spec: the tolerance of the `AlmostEquals` helper of
`utils/math.h`, whose source is not part of this repository snapshot. The
spec only fixes a small symmetric relative epsilon. -/
def kAlmostEqualsTolerance : ℚ := 1 / 2 ^ 20

/-- Modelled from the spec: `AlmostEquals` of `utils/math.h` (not in the
snapshot), the symmetric relative-tolerance comparison
`|a - b| <= kAlmostEqualsTolerance * max |a| |b|`, written in
cross-multiplied integer form so that it evaluates by kernel reduction;
the lemma `almostEquals_iff` below recovers the rational-arithmetic form.
Bit-identical arguments always compare almost-equal. -/
def AlmostEquals (a b : ℚ) : Bool :=
  decide (2 ^ 20 * (a.num * (b.den : ℤ) - b.num * (a.den : ℤ)).natAbs ≤
    max (a.num.natAbs * b.den) (b.num.natAbs * a.den))

/-- The threshold test applied to a similarity in both flattening algorithms:
`similarity > linkage_threshold || AlmostEquals(similarity, linkage_threshold)`. -/
def thresholdTest (linkage_threshold similarity : ℚ) : Bool :=
  decide (linkage_threshold < similarity) || AlmostEquals similarity linkage_threshold

/-- Modelled from the spec: the external `AsynchronousUnionFind` primitive
(`in_memory/connected_components/asynchronous_union_find.h`, not in the
snapshot). The spec requires only `Unite`/`Find` over a fixed universe with
`Find` consistent with all prior unites; we represent a state by its
representative function. -/
structure AsynchronousUnionFind where
  find : Nat → Nat

def AsynchronousUnionFind.init : AsynchronousUnionFind :=
  ⟨fun x => x⟩

def AsynchronousUnionFind.Find (u : AsynchronousUnionFind) (a : Nat) : Nat :=
  u.find a

/-- Unite merges the component of `a` into the component of `b`. -/
def AsynchronousUnionFind.Unite (u : AsynchronousUnionFind) (a b : Nat) :
    AsynchronousUnionFind :=
  ⟨fun x => if u.find x = u.find a then u.find b else u.find x⟩

/-- Apply a list of Unite operations to a fresh union-find instance. -/
def applyUnites (ps : List (Nat × Nat)) : AsynchronousUnionFind :=
  ps.foldl (fun f p => f.Unite p.1 p.2) AsynchronousUnionFind.init

/-- The Unite calls performed by the edge loop of `GetClustering`: one per
slot whose parent edge exists and passes the threshold test. -/
def clusteringPairs (d : ParallelDendrogram) (linkage_threshold : ℚ) :
    List (Nat × Nat) :=
  (List.range d.MaxClusterId).filterMap (fun i =>
    if stepOf d i ≠ kInvalidClusterId ∧
        thresholdTest linkage_threshold (simOf d i) = true then
      some (i, stepOf d i)
    else none)

/-- The union-find state built by `GetClustering` (the parallel edge loop,
sequentialized). -/
def clusteringUF (d : ParallelDendrogram) (linkage_threshold : ℚ) :
    AsynchronousUnionFind :=
  applyUnites (clusteringPairs d linkage_threshold)

/-- GetClustering: cut the dendrogram, then emit `(i, Find(i))` per base node. -/
def ParallelDendrogram.GetClustering (d : ParallelDendrogram) (linkage_threshold : ℚ) :
    List (Nat × Nat) :=
  (List.range d.num_nodes).map (fun i =>
    (i, (clusteringUF d linkage_threshold).Find i))

/-- The preprocessing pass of `GetSubtreeClustering`: the array
`merge_similarities` (initialized to 0) after the parallel scatter-max over
all parent edges, sequentialized. -/
def mergeSimilarities (d : ParallelDendrogram) : Nat → ℚ :=
  (List.range d.MaxClusterId).foldl
    (fun ms i =>
      if stepOf d i ≠ kInvalidClusterId ∧ ms (stepOf d i) < simOf d i then
        fun p => if p = stepOf d i then simOf d i else ms p
      else ms)
    (fun _ => 0)

/-- Loop body of `UniteAlongPath`: `while (child != ancestor) { Unite(child,
ancestor); child = parent_pointers_[child].parent_id; }`, with fuel making
the recursion structural (the fuel `MaxClusterId` is never exhausted on a
valid dendrogram, where parent ids strictly increase along a path). -/
def uniteAlongPathAux (d : ParallelDendrogram) :
    Nat → AsynchronousUnionFind → Nat → Nat → AsynchronousUnionFind
  | 0, f, _, _ => f
  | fuel + 1, f, child, ancestor =>
    if child = ancestor then f
    else uniteAlongPathAux d fuel (f.Unite child ancestor) (stepOf d child) ancestor

/-- UniteAlongPath helper of `GetSubtreeClustering`: skip if the endpoints are
already in the same component, otherwise unite along the path. -/
def UniteAlongPath (d : ParallelDendrogram) (f : AsynchronousUnionFind)
    (child ancestor : Nat) : AsynchronousUnionFind :=
  if f.Find child = f.Find ancestor then f
  else uniteAlongPathAux d d.MaxClusterId f child ancestor

/-- The per-leaf upward walk of `GetSubtreeClustering` (the body of the second
parallel loop), with fuel making the recursion structural. -/
def walkAux (d : ParallelDendrogram) (linkage_threshold : ℚ) (ms : Nat → ℚ) :
    Nat → AsynchronousUnionFind → Nat → Nat → AsynchronousUnionFind
  | 0, f, _, _ => f
  | fuel + 1, f, child, last_root =>
    if stepOf d child = kInvalidClusterId then f
    else
      if f.Find child = f.Find (stepOf d child) then
        UniteAlongPath d f last_root child
      else
        if thresholdTest linkage_threshold (ms (stepOf d child)) = true then
          walkAux d linkage_threshold ms fuel
            (UniteAlongPath d f last_root (stepOf d child)) (stepOf d child) (stepOf d child)
        else
          walkAux d linkage_threshold ms fuel f (stepOf d child) last_root

/-- The union-find state built by `GetSubtreeClustering` (the per-leaf walks,
sequentialized in leaf order). -/
def subtreeUF (d : ParallelDendrogram) (linkage_threshold : ℚ) :
    AsynchronousUnionFind :=
  (List.range d.num_nodes).foldl
    (fun f i => walkAux d linkage_threshold (mergeSimilarities d) d.MaxClusterId f i i)
    AsynchronousUnionFind.init

/-- GetSubtreeClustering: preprocessing plus per-leaf walks, then emit
`(i, Find(i))` per base node. -/
def ParallelDendrogram.GetSubtreeClustering (d : ParallelDendrogram)
    (linkage_threshold : ℚ) : List (Nat × Nat) :=
  (List.range d.num_nodes).map (fun i =>
    (i, (subtreeUF d linkage_threshold).Find i))

/-! ### Connectivity closure -/

/-- Connected R is the equivalence closure of `R`: two ids are related when a
chain of `R`-edges (crossed in either direction) joins them. -/
inductive Connected (R : Nat → Nat → Prop) : Nat → Nat → Prop
  | rel {x y : Nat} : R x y → Connected R x y
  | refl (x : Nat) : Connected R x x
  | symm {x y : Nat} : Connected R x y → Connected R y x
  | trans {x y z : Nat} : Connected R x y → Connected R y z → Connected R x z

/-! ### Path structure of the dendrogram -/

/-- Existence of the parent edge from `x` to `y`. -/
def edgeTo (d : ParallelDendrogram) (x y : Nat) : Prop :=
  stepOf d x ≠ kInvalidClusterId ∧ stepOf d x = y

/-- Ancestor-or-self relation along parent pointers. -/
def Anc (d : ParallelDendrogram) : Nat → Nat → Prop :=
  Relation.ReflTransGen (edgeTo d)

/-- Strict ancestor relation along parent pointers. -/
def SAnc (d : ParallelDendrogram) : Nat → Nat → Prop :=
  Relation.TransGen (edgeTo d)

/-- A dendrogram reachable by a valid merge sequence: the slot array has
size `2 * num_nodes - 1`, that size is below the sentinel (the constructor
check), and every registered parent id lies in `[num_nodes, 2 * num_nodes - 1)`
and is larger than the child id (a merge folds existing clusters into a
newly created cluster, and cluster ids are assigned in creation order). -/
def ValidDendrogram (d : ParallelDendrogram) : Prop :=
  1 ≤ d.num_nodes ∧
  d.parent_pointers.length = d.MaxClusterId ∧
  d.MaxClusterId < kInvalidClusterId ∧
  ∀ i, i < d.MaxClusterId → stepOf d i ≠ kInvalidClusterId →
    d.num_nodes ≤ stepOf d i ∧ stepOf d i < d.MaxClusterId ∧ i < stepOf d i

instance (d : ParallelDendrogram) : Decidable (ValidDendrogram d) := by
  unfold ValidDendrogram
  infer_instance

/-- Qualifying ancestor for `GetSubtreeClustering`: a strict ancestor whose
preprocessed per-cluster merge similarity passes the threshold test. -/
def QualifyingAncestor (d : ParallelDendrogram) (T : ℚ) (x p : Nat) : Prop :=
  SAnc d x p ∧ thresholdTest T (mergeSimilarities d p) = true

/-- IsLastRoot d T x r states that r is the last (topmost) qualifying
ancestor on the leaf-to-root path of x, or x itself when no ancestor of x
qualifies. -/
def IsLastRoot (d : ParallelDendrogram) (T : ℚ) (x r : Nat) : Prop :=
  (r = x ∧ ∀ q, ¬ QualifyingAncestor d T x q) ∨
  (QualifyingAncestor d T x r ∧ ∀ q, QualifyingAncestor d T x q → Anc d q r)

/-- Fuel-based walk computing the last root of a node. -/
def lastRootAux (d : ParallelDendrogram) (T : ℚ) :
    Nat → Nat → Nat → Nat
  | 0, _, lr => lr
  | fuel + 1, child, lr =>
    if stepOf d child = kInvalidClusterId then lr
    else
      lastRootAux d T fuel (stepOf d child)
        (if thresholdTest T (mergeSimilarities d (stepOf d child)) = true then
          stepOf d child
        else lr)

/-- The last root of a node (the node it is assigned to by the subtree cut). -/
def lastRoot (d : ParallelDendrogram) (T : ℚ) (x : Nat) : Nat :=
  lastRootAux d T d.MaxClusterId x x

/-- An edge that individually passes the threshold test of `GetClustering`. -/
def passEdge (d : ParallelDendrogram) (T : ℚ) (x y : Nat) : Prop :=
  edgeTo d x y ∧ thresholdTest T (simOf d x) = true

/-- Tree edges on the path from `a` (inclusive) to `b`: an edge out of a node
that is at or above `a` and strictly below `b`. -/
def pathEdge (d : ParallelDendrogram) (a b x y : Nat) : Prop :=
  edgeTo d x y ∧ Anc d a x ∧ SAnc d x b

/-- The tree edges united by the walks of the first `k` base nodes of
`GetSubtreeClustering`: edges on the path from a base node `i < k` up to
(strictly below) the last root of `i`. -/
def segEdge (d : ParallelDendrogram) (T : ℚ) (k : Nat) (x y : Nat) : Prop :=
  ∃ i, i < k ∧ pathEdge d i (lastRoot d T i) x y

/-- Similarities of the parent edges pointing into cluster `p`. -/
def incomingSims (d : ParallelDendrogram) (p : Nat) : List ℚ :=
  (((List.range d.MaxClusterId).filter
    (fun i => decide (stepOf d i ≠ kInvalidClusterId ∧ stepOf d i = p)))).map (simOf d)

/-- All leaf-to-root paths have non-increasing merge similarities
(consecutive-edge form). -/
def MonotonePaths (d : ParallelDendrogram) : Prop :=
  ∀ i, i < d.MaxClusterId → stepOf d i ≠ kInvalidClusterId →
    stepOf d (stepOf d i) ≠ kInvalidClusterId →
    simOf d (stepOf d i) ≤ simOf d i

instance (d : ParallelDendrogram) : Decidable (MonotonePaths d) := by
  unfold MonotonePaths
  infer_instance

/-- All children merged into the same parent register the same similarity. -/
def UniformMergeSimilarities (d : ParallelDendrogram) : Prop :=
  ∀ i, i < d.MaxClusterId → ∀ j, j < d.MaxClusterId →
    stepOf d i ≠ kInvalidClusterId → stepOf d j ≠ kInvalidClusterId →
    stepOf d i = stepOf d j → simOf d i = simOf d j

instance (d : ParallelDendrogram) : Decidable (UniformMergeSimilarities d) := by
  unfold UniformMergeSimilarities
  infer_instance

/-- All registered merge similarities are nonnegative. -/
def NonnegativeSimilarities (d : ParallelDendrogram) : Prop :=
  ∀ i, i < d.MaxClusterId → stepOf d i ≠ kInvalidClusterId → 0 ≤ simOf d i

instance (d : ParallelDendrogram) : Decidable (NonnegativeSimilarities d) := by
  unfold NonnegativeSimilarities
  infer_instance

/-- The merge sequence fully merged all nodes into one root: exactly one slot
has no parent pointer. -/
def SingleTree (d : ParallelDendrogram) : Prop :=
  ((List.range d.MaxClusterId).filter (fun x => !(d.HasValidParent x))).length = 1

instance (d : ParallelDendrogram) : Decidable (SingleTree d) := by
  unfold SingleTree
  infer_instance

/-- Rational 3/10 as a kernel-evaluable literal. -/
def q3o10 : ℚ := ⟨3, 10, by decide, by decide⟩

/-- Rational 8/10 = 4/5 as a kernel-evaluable literal. -/
def q4o5 : ℚ := ⟨4, 5, by decide, by decide⟩

/-- Rational 1/2 as a kernel-evaluable literal. -/
def q1o2 : ℚ := ⟨1, 2, by decide, by decide⟩

/-- The non-monotone example of the spec: leaves 0, 1, 2 with merges
`(0 -> 3, 0.3)`, `(1 -> 3, 0.3)`, `(3 -> 4, 0.8)`, `(2 -> 4, 0.8)`. -/
def exampleDendrogram3 : ParallelDendrogram :=
  ⟨3, [⟨3, q3o10⟩, ⟨3, q3o10⟩, ⟨4, q4o5⟩, ⟨4, q4o5⟩, ⟨kInvalidClusterId, 0⟩]⟩

/-- Rational 9/10 as a kernel-evaluable literal. -/
def q9o10 : ℚ := ⟨9, 10, by decide, by decide⟩

/-- Rational 7/10 as a kernel-evaluable literal. -/
def q7o10 : ℚ := ⟨7, 10, by decide, by decide⟩

/-- Rational minus one as a kernel-evaluable literal. -/
def qm1 : ℚ := ⟨-1, 1, by decide, by decide⟩

/-- Rational minus one half as a kernel-evaluable literal. -/
def qm1o2 : ℚ := ⟨-1, 2, by decide, by decide⟩

/-- Rational 1 + 2 ^ (-21), a value within the AlmostEquals tolerance
above 1 (the tolerance is 2 ^ (-20)). -/
def qAboveOne : ℚ := ⟨2097153, 2097152, by decide, by decide⟩

/-- The monotone example of the spec: 4 leaves with merges `(0 -> 4, 0.9)`,
`(1 -> 4, 0.9)`, `(2 -> 5, 0.5)`, `(4 -> 5, 0.5)`, `(5 -> 6, 0.5)`,
`(3 -> 6, 0.5)`. -/
def exampleDendrogram4 : ParallelDendrogram :=
  ⟨4, [⟨4, q9o10⟩, ⟨4, q9o10⟩, ⟨5, q1o2⟩, ⟨6, q1o2⟩, ⟨5, q1o2⟩, ⟨6, q1o2⟩,
    ⟨kInvalidClusterId, 0⟩]⟩

/-- Two leaves merged into one cluster with differing similarities 0.9 and
0.5 registered on the two child edges. -/
def cexNonuniform : ParallelDendrogram :=
  ⟨2, [⟨2, q9o10⟩, ⟨2, q1o2⟩, ⟨kInvalidClusterId, 0⟩]⟩

/-- Two leaves merged into one cluster with similarity 1 on both edges. -/
def cexUnit : ParallelDendrogram :=
  ⟨2, [⟨2, 1⟩, ⟨2, 1⟩, ⟨kInvalidClusterId, 0⟩]⟩

/-- Two leaves merged into one cluster with similarity minus one on both
edges. -/
def cexNegative : ParallelDendrogram :=
  ⟨2, [⟨2, qm1⟩, ⟨2, qm1⟩, ⟨kInvalidClusterId, 0⟩]⟩

/-- A fresh two-node dendrogram with no merges registered. -/
def emptyDendrogram2 : ParallelDendrogram :=
  ⟨2, [⟨kInvalidClusterId, 0⟩, ⟨kInvalidClusterId, 0⟩, ⟨kInvalidClusterId, 0⟩]⟩

/-- IncomingMax d p s: s is the maximum similarity among the direct child
edges pointing into p (the unclamped maximum, as the claim words it). -/
def IncomingMax (d : ParallelDendrogram) (p : Nat) (s : ℚ) : Prop :=
  (∃ c, edgeTo d c p ∧ simOf d c = s) ∧ ∀ c, edgeTo d c p → simOf d c ≤ s

/-- Qualifying ancestor in the claim wording: a strict ancestor whose
incoming merge, taken as the unclamped maximum of the child-edge
similarities, passes the threshold test. -/
def ClaimQualifyingAncestor (d : ParallelDendrogram) (T : ℚ) (x p : Nat) : Prop :=
  SAnc d x p ∧ ∃ s, IncomingMax d p s ∧ thresholdTest T s = true

/-! ### Lemmas: connectivity and union-find -/

theorem connected_mono_connected {R S : Nat → Nat → Prop}
    (h : ∀ x y, R x y → Connected S x y) {x y : Nat} :
    Connected R x y → Connected S x y := by
  intro hc
  induction hc with
  | rel hr => exact h _ _ hr
  | refl a => exact Connected.refl a
  | symm _ ih => exact ih.symm
  | trans _ _ ih₁ ih₂ => exact ih₁.trans ih₂

theorem connected_mono {R S : Nat → Nat → Prop}
    (h : ∀ x y, R x y → S x y) {x y : Nat} :
    Connected R x y → Connected S x y :=
  connected_mono_connected (fun a b hab => Connected.rel (h a b hab))

theorem connected_congr {R S : Nat → Nat → Prop}
    (h : ∀ x y, R x y ↔ S x y) (x y : Nat) :
    Connected R x y ↔ Connected S x y :=
  ⟨connected_mono (fun a b => (h a b).mp), connected_mono (fun a b => (h a b).mpr)⟩

theorem connected_empty (x y : Nat) :
    Connected (fun _ _ => False) x y ↔ x = y := by
  constructor
  · intro hc
    induction hc with
    | rel hr => exact absurd hr (fun h => h)
    | refl a => rfl
    | symm _ ih => exact ih.symm
    | trans _ _ ih₁ ih₂ => exact ih₁.trans ih₂
  · rintro rfl
    exact Connected.refl x

theorem connected_ker {R : Nat → Nat → Prop} {g : Nat → Nat}
    (h : ∀ a b, R a b → g a = g b) {x y : Nat} :
    Connected R x y → g x = g y := by
  intro hc
  induction hc with
  | rel hr => exact h _ _ hr
  | refl a => rfl
  | symm _ ih => exact ih.symm
  | trans _ _ ih₁ ih₂ => exact ih₁.trans ih₂

/-! ### Union-find lemmas -/

theorem unite_find_eq_iff (f : AsynchronousUnionFind) (a b x y : Nat) :
    ((f.Unite a b).Find x = (f.Unite a b).Find y) ↔
      (f.Find x = f.Find y ∨ (f.Find x = f.Find a ∧ f.Find b = f.Find y) ∨
        (f.Find x = f.Find b ∧ f.Find a = f.Find y)) := by
  show (if f.find x = f.find a then f.find b else f.find x) =
      (if f.find y = f.find a then f.find b else f.find y) ↔ _
  by_cases hx : f.find x = f.find a <;> by_cases hy : f.find y = f.find a
  · rw [if_pos hx, if_pos hy]
    constructor
    · intro _
      exact Or.inl (hx.trans hy.symm)
    · intro _
      rfl
  · rw [if_pos hx, if_neg hy]
    constructor
    · intro h
      exact Or.inr (Or.inl ⟨hx, h⟩)
    · rintro (h | ⟨_h1, h2⟩ | ⟨_h1, h2⟩)
      · exact absurd (h.symm.trans hx) hy
      · exact h2
      · exact absurd h2.symm hy
  · rw [if_neg hx, if_pos hy]
    constructor
    · intro h
      exact Or.inr (Or.inr ⟨h, hy.symm⟩)
    · rintro (h | ⟨h1, _h2⟩ | ⟨h1, _h2⟩)
      · exact absurd (h.trans hy) hx
      · exact absurd h1 hx
      · exact h1
  · rw [if_neg hx, if_neg hy]
    constructor
    · intro h
      exact Or.inl h
    · rintro (h | ⟨h1, _h2⟩ | ⟨_h1, h2⟩)
      · exact h
      · exact absurd h1 hx
      · exact absurd h2.symm hy

theorem connected_insert_iff (R : Nat → Nat → Prop) (a b x y : Nat) :
    (Connected R x y ∨ (Connected R x a ∧ Connected R b y) ∨
      (Connected R x b ∧ Connected R a y)) ↔
    Connected (fun u v => R u v ∨ (u = a ∧ v = b)) x y := by
  constructor
  · have hab : Connected (fun u v => R u v ∨ (u = a ∧ v = b)) a b :=
      Connected.rel (Or.inr ⟨rfl, rfl⟩)
    have hmono : ∀ u v, Connected R u v →
        Connected (fun u v => R u v ∨ (u = a ∧ v = b)) u v :=
      fun u v h => connected_mono (fun p q hpq => Or.inl hpq) h
    rintro (h | ⟨h1, h2⟩ | ⟨h1, h2⟩)
    · exact hmono _ _ h
    · exact ((hmono _ _ h1).trans hab).trans (hmono _ _ h2)
    · exact ((hmono _ _ h1).trans hab.symm).trans (hmono _ _ h2)
  · intro h
    induction h with
    | rel hr =>
      rcases hr with hr | ⟨rfl, rfl⟩
      · exact Or.inl (Connected.rel hr)
      · exact Or.inr (Or.inl ⟨Connected.refl _, Connected.refl _⟩)
    | refl u => exact Or.inl (Connected.refl u)
    | symm _ ih =>
      rcases ih with h | ⟨h1, h2⟩ | ⟨h1, h2⟩
      · exact Or.inl h.symm
      · exact Or.inr (Or.inr ⟨h2.symm, h1.symm⟩)
      · exact Or.inr (Or.inl ⟨h2.symm, h1.symm⟩)
    | trans _ _ ih₁ ih₂ =>
      rcases ih₁ with h | ⟨h1, h2⟩ | ⟨h1, h2⟩ <;>
        rcases ih₂ with g | ⟨g1, g2⟩ | ⟨g1, g2⟩
      · exact Or.inl (h.trans g)
      · exact Or.inr (Or.inl ⟨h.trans g1, g2⟩)
      · exact Or.inr (Or.inr ⟨h.trans g1, g2⟩)
      · exact Or.inr (Or.inl ⟨h1, h2.trans g⟩)
      · exact Or.inl ((h1.trans (h2.trans g1).symm).trans g2)
      · exact Or.inl (h1.trans g2)
      · exact Or.inr (Or.inr ⟨h1, h2.trans g⟩)
      · exact Or.inl (h1.trans g2)
      · exact Or.inl ((h1.trans (h2.trans g1).symm).trans g2)

theorem unite_find_iff {f : AsynchronousUnionFind} {R : Nat → Nat → Prop}
    (hf : ∀ x y, f.Find x = f.Find y ↔ Connected R x y) (a b x y : Nat) :
    ((f.Unite a b).Find x = (f.Unite a b).Find y) ↔
      Connected (fun u v => R u v ∨ (u = a ∧ v = b)) x y := by
  rw [unite_find_eq_iff, hf, hf, hf, hf, hf]
  exact connected_insert_iff R a b x y

theorem foldl_unite_find_iff :
    ∀ (ps : List (Nat × Nat)) (f : AsynchronousUnionFind)
      (R : Nat → Nat → Prop)
      (hf : ∀ x y, f.Find x = f.Find y ↔ Connected R x y) (x y : Nat),
      ((ps.foldl (fun g p => g.Unite p.1 p.2) f).Find x =
        (ps.foldl (fun g p => g.Unite p.1 p.2) f).Find y) ↔
        Connected (fun u v => R u v ∨ (u, v) ∈ ps) x y := by
  intro ps
  induction ps with
  | nil =>
    intro f R hf x y
    simp only [List.foldl_nil, List.not_mem_nil, or_false]
    exact hf x y
  | cons p rest ih =>
    intro f R hf x y
    simp only [List.foldl_cons]
    rw [ih (f.Unite p.1 p.2) _ (unite_find_iff hf p.1 p.2) x y]
    apply connected_congr
    intro u v
    simp only [List.mem_cons, Prod.ext_iff]
    tauto

theorem applyUnites_find_iff (ps : List (Nat × Nat)) (x y : Nat) :
    ((applyUnites ps).Find x = (applyUnites ps).Find y) ↔
      Connected (fun u v => (u, v) ∈ ps) x y := by
  unfold applyUnites
  have hinit : ∀ x y, (AsynchronousUnionFind.init.Find x =
      AsynchronousUnionFind.init.Find y) ↔ Connected (fun _ _ => False) x y := by
    intro x y
    rw [connected_empty]
    exact Iff.rfl
  rw [foldl_unite_find_iff ps AsynchronousUnionFind.init _ hinit x y]
  apply connected_congr
  intro u v
  simp only [false_or]


/-! ### Lemmas: dendrogram path structure -/

theorem stepOf_eq_of_ge_length {d : ParallelDendrogram} {x : Nat}
    (h : d.parent_pointers.length ≤ x) : stepOf d x = kInvalidClusterId := by
  unfold stepOf ParallelDendrogram.GetParent
  rw [List.getD_eq_default _ _ h]
  rfl

theorem edge_bounds {d : ParallelDendrogram} (hv : ValidDendrogram d) {x y : Nat}
    (h : edgeTo d x y) :
    x < d.MaxClusterId ∧ d.num_nodes ≤ y ∧ y < d.MaxClusterId ∧ x < y := by
  obtain ⟨h1, h2⟩ := h
  have hx : x < d.MaxClusterId := by
    by_contra hx
    push_neg at hx
    have hlen : d.parent_pointers.length ≤ x := by
      rw [hv.2.1]
      exact hx
    exact h1 (stepOf_eq_of_ge_length hlen)
  obtain ⟨hn, hm, hlt⟩ := hv.2.2.2 x hx h1
  subst h2
  exact ⟨hx, hn, hm, hlt⟩

theorem edge_det {d : ParallelDendrogram} {x y z : Nat}
    (h1 : edgeTo d x y) (h2 : edgeTo d x z) : y = z := by
  rw [← h1.2, ← h2.2]

theorem anc_le {d : ParallelDendrogram} (hv : ValidDendrogram d) {x y : Nat}
    (h : Anc d x y) : x ≤ y := by
  induction h with
  | refl => exact le_refl x
  | tail hab hbc ih =>
    have := (edge_bounds hv hbc).2.2.2
    omega

theorem sanc_lt {d : ParallelDendrogram} (hv : ValidDendrogram d) {x y : Nat}
    (h : SAnc d x y) : x < y := by
  induction h with
  | single hs => exact (edge_bounds hv hs).2.2.2
  | tail hab hbc ih =>
    have := (edge_bounds hv hbc).2.2.2
    omega

theorem sanc_bounds {d : ParallelDendrogram} (hv : ValidDendrogram d) {x y : Nat}
    (h : SAnc d x y) : d.num_nodes ≤ y ∧ y < d.MaxClusterId := by
  induction h with
  | single hs => exact ⟨(edge_bounds hv hs).2.1, (edge_bounds hv hs).2.2.1⟩
  | tail hab hbc ih => exact ⟨(edge_bounds hv hbc).2.1, (edge_bounds hv hbc).2.2.1⟩

theorem anc_antisymm {d : ParallelDendrogram} (hv : ValidDendrogram d) {x y : Nat}
    (h1 : Anc d x y) (h2 : Anc d y x) : x = y :=
  le_antisymm (anc_le hv h1) (anc_le hv h2)

theorem sanc_irrefl {d : ParallelDendrogram} (hv : ValidDendrogram d) {x : Nat}
    (h : SAnc d x x) : False :=
  lt_irrefl x (sanc_lt hv h)

theorem anc_of_sanc {d : ParallelDendrogram} {x y : Nat} (h : SAnc d x y) :
    Anc d x y :=
  Relation.TransGen.to_reflTransGen h

theorem sanc_of_anc_ne {d : ParallelDendrogram} {x y : Nat} (h : Anc d x y)
    (hne : x ≠ y) : SAnc d x y := by
  rcases Relation.ReflTransGen.cases_head h with heq | ⟨c, hc, htl⟩
  · exact absurd heq hne
  · exact Relation.TransGen.head' hc htl

theorem sanc_step {d : ParallelDendrogram} {x y : Nat} (h : SAnc d x y) :
    Anc d (stepOf d x) y := by
  induction h with
  | single hs =>
    rw [hs.2]
    exact Relation.ReflTransGen.refl
  | tail hab hbc ih => exact ih.tail hbc

theorem anc_parentless {d : ParallelDendrogram} {x y : Nat} (h : Anc d x y)
    (hx : stepOf d x = kInvalidClusterId) : y = x := by
  rcases Relation.ReflTransGen.cases_head h with heq | ⟨c, hc, htl⟩
  · exact heq.symm
  · exact absurd hx hc.1

theorem anc_total {d : ParallelDendrogram} {x a b : Nat} (h1 : Anc d x a) :
    Anc d x b → Anc d a b ∨ Anc d b a := by
  induction h1 using Relation.ReflTransGen.head_induction_on with
  | refl =>
    intro h2
    exact Or.inl h2
  | @head u c hstep htail ih =>
    intro h2
    rcases Relation.ReflTransGen.cases_head h2 with heq | ⟨c2, hc2, htl2⟩
    · subst heq
      exact Or.inr (htail.head hstep)
    · have hcc : c2 = c := edge_det hc2 hstep
      subst hcc
      exact ih htl2

theorem connected_cut {d : ParallelDendrogram} (hv : ValidDendrogram d)
    {S : Nat → Nat → Prop} (hS : ∀ u v, S u v → edgeTo d u v)
    {z : Nat} (hz : ¬ S z (stepOf d z)) {a b : Nat} (h : Connected S a b) :
    Anc d a z ↔ Anc d b z := by
  induction h with
  | @rel x y hr =>
    have he := hS _ _ hr
    have hne : x ≠ z := by
      rintro rfl
      rw [← he.2] at hr
      exact hz hr
    constructor
    · intro hxz
      have hstep := sanc_step (sanc_of_anc_ne hxz hne)
      rwa [he.2] at hstep
    · intro hyz
      exact hyz.head he
  | refl a => exact Iff.rfl
  | symm _ ih => exact ih.symm
  | trans _ _ ih1 ih2 => exact ih1.trans ih2

theorem connected_edge_mem {d : ParallelDendrogram} (hv : ValidDendrogram d)
    {S : Nat → Nat → Prop} (hS : ∀ u v, S u v → edgeTo d u v)
    {x : Nat} (hedge : edgeTo d x (stepOf d x))
    (h : Connected S x (stepOf d x)) : S x (stepOf d x) := by
  by_contra hmem
  have hiff := connected_cut hv hS hmem h
  have h2 : Anc d (stepOf d x) x := hiff.mp Relation.ReflTransGen.refl
  have hle := anc_le hv h2
  have hlt := (edge_bounds hv hedge).2.2.2
  omega

theorem connected_path_edges {d : ParallelDendrogram} (hv : ValidDendrogram d)
    {S : Nat → Nat → Prop} (hS : ∀ u v, S u v → edgeTo d u v)
    {a b : Nat} (h : Connected S a b)
    {z : Nat} (haz : Anc d a z) (hzb : SAnc d z b) : S z (stepOf d z) := by
  by_contra hmem
  have hiff := connected_cut hv hS hmem h
  have h2 : Anc d b z := hiff.mp haz
  have hlt := sanc_lt hv hzb
  have hle := anc_le hv h2
  omega

theorem connected_of_path {d : ParallelDendrogram} {R : Nat → Nat → Prop}
    {u v : Nat} (huv : Anc d u v) :
    (∀ z, Anc d u z → SAnc d z v → R z (stepOf d z)) → Connected R u v := by
  induction huv using Relation.ReflTransGen.head_induction_on with
  | refl =>
    intro _
    exact Connected.refl _
  | @head u0 c hstep htail ih =>
    intro hR
    have hR0 : R u0 (stepOf d u0) :=
      hR u0 Relation.ReflTransGen.refl (Relation.TransGen.head' hstep htail)
    have hc : Connected R u0 c := by
      have := Connected.rel hR0
      rwa [hstep.2] at this
    refine hc.trans (ih ?_)
    intro z hz hzv
    exact hR z (hz.head hstep) hzv

/-! ### Lemmas: merge similarity preprocessing -/

theorem le_foldl_max (l : List ℚ) (a : ℚ) : a ≤ l.foldl max a := by
  induction l generalizing a with
  | nil => exact le_refl a
  | cons x xs ih => exact le_trans (le_max_left a x) (ih (max a x))

theorem mem_le_foldl_max {l : List ℚ} {x : ℚ} (hx : x ∈ l) (a : ℚ) :
    x ≤ l.foldl max a := by
  induction l generalizing a with
  | nil => exact absurd hx (List.not_mem_nil x)
  | cons y ys ih =>
    rw [List.foldl_cons]
    rcases List.mem_cons.mp hx with rfl | hmem
    · exact le_trans (le_max_right a x) (le_foldl_max ys (max a x))
    · exact ih hmem (max a y)

theorem foldl_max_mem (l : List ℚ) (a : ℚ) :
    l.foldl max a = a ∨ l.foldl max a ∈ l := by
  induction l generalizing a with
  | nil => exact Or.inl rfl
  | cons y ys ih =>
    rw [List.foldl_cons]
    rcases ih (max a y) with h | h
    · rcases le_total a y with hay | hya
      · right
        rw [h, max_eq_right hay]
        exact List.mem_cons_self y ys
      · left
        rw [h, max_eq_left hya]
    · right
      exact List.mem_cons_of_mem y h

theorem mergeSimilarities_foldl_apply (d : ParallelDendrogram) :
    ∀ (l : List Nat) (g : Nat → ℚ) (p : Nat),
      (l.foldl (fun ms i =>
        if stepOf d i ≠ kInvalidClusterId ∧ ms (stepOf d i) < simOf d i then
          fun q => if q = stepOf d i then simOf d i else ms q
        else ms) g) p =
      l.foldl (fun acc i =>
        if stepOf d i ≠ kInvalidClusterId ∧ stepOf d i = p then max acc (simOf d i)
        else acc) (g p) := by
  intro l
  induction l with
  | nil =>
    intro g p
    rfl
  | cons x xs ih =>
    intro g p
    rw [List.foldl_cons, List.foldl_cons]
    by_cases hP : stepOf d x ≠ kInvalidClusterId
    · by_cases hR : stepOf d x = p
      · by_cases hQ : g (stepOf d x) < simOf d x
        · rw [if_pos ⟨hP, hQ⟩, if_pos ⟨hP, hR⟩, ih]
          congr 1
          rw [if_pos hR.symm, ← hR]
          exact (max_eq_right (le_of_lt hQ)).symm
        · rw [if_neg (fun h => hQ h.2), if_pos ⟨hP, hR⟩, ih]
          congr 1
          rw [← hR]
          exact (max_eq_left (not_lt.mp hQ)).symm
      · by_cases hQ : g (stepOf d x) < simOf d x
        · rw [if_pos ⟨hP, hQ⟩, if_neg (fun h => hR h.2), ih]
          congr 1
          rw [if_neg (fun h => hR h.symm)]
        · rw [if_neg (fun h => hQ h.2), if_neg (fun h => hR h.2), ih]
    · rw [if_neg (fun h => hP h.1), if_neg (fun h => hP h.1), ih]

theorem foldl_if_max_eq (d : ParallelDendrogram) (p : Nat) :
    ∀ (l : List Nat) (a : ℚ),
      l.foldl (fun acc i =>
        if stepOf d i ≠ kInvalidClusterId ∧ stepOf d i = p then max acc (simOf d i)
        else acc) a =
      ((l.filter (fun i =>
        decide (stepOf d i ≠ kInvalidClusterId ∧ stepOf d i = p))).map (simOf d)).foldl
        max a := by
  intro l
  induction l with
  | nil =>
    intro a
    rfl
  | cons x xs ih =>
    intro a
    by_cases h : stepOf d x ≠ kInvalidClusterId ∧ stepOf d x = p
    · rw [List.foldl_cons, if_pos h, List.filter_cons_of_pos (by simpa using h),
        List.map_cons, List.foldl_cons]
      exact ih (max a (simOf d x))
    · rw [List.foldl_cons, if_neg h, List.filter_cons_of_neg (by simpa using h)]
      exact ih a

theorem mergeSimilarities_apply (d : ParallelDendrogram) (p : Nat) :
    mergeSimilarities d p = (incomingSims d p).foldl max 0 := by
  unfold mergeSimilarities incomingSims
  rw [mergeSimilarities_foldl_apply, foldl_if_max_eq]

theorem mergeSimilarities_nonneg (d : ParallelDendrogram) (p : Nat) :
    0 ≤ mergeSimilarities d p := by
  rw [mergeSimilarities_apply]
  exact le_foldl_max _ 0

theorem mem_incomingSims {d : ParallelDendrogram} {p : Nat} {s : ℚ} :
    s ∈ incomingSims d p ↔
      ∃ c, c < d.MaxClusterId ∧ stepOf d c ≠ kInvalidClusterId ∧ stepOf d c = p ∧
        simOf d c = s := by
  unfold incomingSims
  simp only [List.mem_map, List.mem_filter, List.mem_range, decide_eq_true_eq]
  constructor
  · rintro ⟨c, ⟨hc, h1, h2⟩, h3⟩
    exact ⟨c, hc, h1, h2, h3⟩
  · rintro ⟨c, hc, h1, h2, h3⟩
    exact ⟨c, ⟨hc, h1, h2⟩, h3⟩

theorem sim_le_mergeSimilarities {d : ParallelDendrogram} (hv : ValidDendrogram d)
    {c p : Nat} (h : edgeTo d c p) : simOf d c ≤ mergeSimilarities d p := by
  rw [mergeSimilarities_apply]
  apply mem_le_foldl_max
  exact mem_incomingSims.mpr ⟨c, (edge_bounds hv h).1, h.1, h.2, rfl⟩

theorem mergeSimilarities_cases (d : ParallelDendrogram) (p : Nat) :
    mergeSimilarities d p = 0 ∨
      ∃ c, c < d.MaxClusterId ∧ edgeTo d c p ∧ simOf d c = mergeSimilarities d p := by
  rw [mergeSimilarities_apply]
  rcases foldl_max_mem (incomingSims d p) 0 with h | h
  · exact Or.inl h
  · right
    obtain ⟨c, hc, h1, h2, h3⟩ := mem_incomingSims.mp h
    exact ⟨c, hc, ⟨h1, h2⟩, h3⟩

/-! ### Lemmas: the last root of a node -/

theorem isLastRoot_unique {d : ParallelDendrogram} (hv : ValidDendrogram d)
    {T : ℚ} {x r1 r2 : Nat} (h1 : IsLastRoot d T x r1) (h2 : IsLastRoot d T x r2) :
    r1 = r2 := by
  rcases h1 with ⟨rfl, hn⟩ | ⟨hq1, htop1⟩ <;> rcases h2 with ⟨rfl, hn2⟩ | ⟨hq2, htop2⟩
  · rfl
  · exact absurd hq2 (hn r2)
  · exact absurd hq1 (hn2 r1)
  · exact anc_antisymm hv (htop2 r1 hq1) (htop1 r2 hq2)

theorem isLastRoot_of_top {d : ParallelDendrogram} (hv : ValidDendrogram d)
    {T : ℚ} {x child lr : Nat}
    (hnopar : stepOf d child = kInvalidClusterId)
    (hxc : Anc d x child)
    (hlr : lr = x ∨ (SAnc d x lr ∧ thresholdTest T (mergeSimilarities d lr) = true))
    (htop : ∀ q, SAnc d x q → Anc d q child →
      thresholdTest T (mergeSimilarities d q) = true → Anc d q lr) :
    IsLastRoot d T x lr := by
  have hall : ∀ q, QualifyingAncestor d T x q → Anc d q lr := by
    rintro q ⟨hs, hp⟩
    rcases anc_total (anc_of_sanc hs) hxc with hqc | hcq
    · exact htop q hs hqc hp
    · have : q = child := anc_parentless hcq hnopar
      subst this
      exact htop q hs Relation.ReflTransGen.refl hp
  rcases hlr with rfl | ⟨hs, hp⟩
  · left
    refine ⟨rfl, fun q hq => ?_⟩
    have h1 := hall q hq
    have h2 := sanc_lt hv hq.1
    have h3 := anc_le hv h1
    omega
  · right
    exact ⟨⟨hs, hp⟩, hall⟩

theorem lastRootAux_spec {d : ParallelDendrogram} (hv : ValidDendrogram d) (T : ℚ)
    {x : Nat} :
    ∀ (fuel : Nat) (child lr : Nat),
      d.MaxClusterId ≤ fuel + child →
      Anc d x child →
      (lr = x ∨ (SAnc d x lr ∧ thresholdTest T (mergeSimilarities d lr) = true)) →
      Anc d lr child →
      (∀ q, SAnc d x q → Anc d q child →
        thresholdTest T (mergeSimilarities d q) = true → Anc d q lr) →
      IsLastRoot d T x (lastRootAux d T fuel child lr) := by
  intro fuel
  induction fuel with
  | zero =>
    intro child lr hfuel hxc hlr hlrc htop
    have hnopar : stepOf d child = kInvalidClusterId := by
      apply stepOf_eq_of_ge_length
      rw [hv.2.1]
      omega
    exact isLastRoot_of_top hv hnopar hxc hlr htop
  | succ n ih =>
    intro child lr hfuel hxc hlr hlrc htop
    rw [lastRootAux]
    by_cases hnopar : stepOf d child = kInvalidClusterId
    · rw [if_pos hnopar]
      exact isLastRoot_of_top hv hnopar hxc hlr htop
    · rw [if_neg hnopar]
      have hedge : edgeTo d child (stepOf d child) := ⟨hnopar, rfl⟩
      have hlt : child < stepOf d child := (edge_bounds hv hedge).2.2.2
      have hxc2 : Anc d x (stepOf d child) := hxc.tail hedge
      have hsanc2 : SAnc d x (stepOf d child) := Relation.TransGen.tail' hxc hedge
      by_cases hpass : thresholdTest T (mergeSimilarities d (stepOf d child)) = true
      · rw [if_pos hpass]
        apply ih (stepOf d child) (stepOf d child) (by omega) hxc2
          (Or.inr ⟨hsanc2, hpass⟩) Relation.ReflTransGen.refl
        intro q _hq hqc _hqp
        exact hqc
      · rw [if_neg hpass]
        apply ih (stepOf d child) lr (by omega) hxc2 hlr (hlrc.tail hedge)
        intro q hq hqc hqp
        rcases anc_total (anc_of_sanc hq) hxc with hqchild | hchildq
        · exact htop q hq hqchild hqp
        · rcases Relation.ReflTransGen.cases_head hchildq with heq | ⟨c2, hc2, htl⟩
          · subst heq
            exact htop child hq Relation.ReflTransGen.refl hqp
          · have hcc : c2 = stepOf d child := hc2.2.symm
            subst hcc
            have hqeq : q = stepOf d child := anc_antisymm hv hqc htl
            subst hqeq
            exact absurd hqp hpass

theorem lastRoot_spec {d : ParallelDendrogram} (hv : ValidDendrogram d) (T : ℚ)
    (x : Nat) : IsLastRoot d T x (lastRoot d T x) := by
  unfold lastRoot
  apply lastRootAux_spec hv T d.MaxClusterId x x (by omega)
    Relation.ReflTransGen.refl (Or.inl rfl) Relation.ReflTransGen.refl
  intro q hq hqx _
  have h1 := sanc_lt hv hq
  have h2 := anc_le hv hqx
  omega

theorem lastRoot_anc {d : ParallelDendrogram} (hv : ValidDendrogram d) (T : ℚ)
    (x : Nat) : Anc d x (lastRoot d T x) := by
  rcases lastRoot_spec hv T x with ⟨heq, _⟩ | ⟨hq, _⟩
  · rw [heq]
    exact Relation.ReflTransGen.refl
  · exact anc_of_sanc hq.1

theorem lastRoot_step_eq {d : ParallelDendrogram} (hv : ValidDendrogram d)
    {T : ℚ} {x q0 : Nat} (hedge : edgeTo d x (stepOf d x))
    (hq0 : QualifyingAncestor d T x q0) (hstep : Anc d (stepOf d x) q0) :
    lastRoot d T x = lastRoot d T (stepOf d x) := by
  have hspec := lastRoot_spec hv T x
  rcases hspec with ⟨_, hn⟩ | ⟨hq, htop⟩
  · exact absurd hq0 (hn q0)
  · have hsr : Anc d (stepOf d x) (lastRoot d T x) := hstep.trans (htop q0 hq0)
    have hnext : IsLastRoot d T (stepOf d x) (lastRoot d T x) := by
      by_cases hcase : lastRoot d T x = stepOf d x
      · left
        refine ⟨hcase, fun q hqq => ?_⟩
        have hqx : QualifyingAncestor d T x q :=
          ⟨Relation.TransGen.head hedge hqq.1, hqq.2⟩
        have h1 := htop q hqx
        rw [hcase] at h1
        have h2 := sanc_lt hv hqq.1
        have h3 := anc_le hv h1
        omega
      · right
        refine ⟨⟨sanc_of_anc_ne hsr (Ne.symm hcase), hq.2⟩, fun q hqq => ?_⟩
        exact htop q ⟨Relation.TransGen.head hedge hqq.1, hqq.2⟩
    exact isLastRoot_unique hv hnext (lastRoot_spec hv T (stepOf d x))

/-! ### Lemmas: UniteAlongPath -/

theorem sanc_edge {d : ParallelDendrogram} {z w : Nat} (h : SAnc d z w) :
    edgeTo d z (stepOf d z) := by
  induction h with
  | single hs => exact ⟨hs.1, rfl⟩
  | tail hab hbc ih => exact ih

theorem connected_pairs_iff_path {d : ParallelDendrogram} (hv : ValidDendrogram d)
    {S : Nat → Nat → Prop} {a b : Nat} (hab : Anc d a b) (x y : Nat) :
    Connected (fun u v => S u v ∨ (Anc d a u ∧ SAnc d u b ∧ v = b)) x y ↔
      Connected (fun u v => S u v ∨ pathEdge d a b u v) x y := by
  constructor
  · apply connected_mono_connected
    rintro u v (hS | ⟨hau, hub, rfl⟩)
    · exact Connected.rel (Or.inl hS)
    · apply connected_of_path (anc_of_sanc hub)
      intro z hz hzb
      exact Or.inr ⟨sanc_edge hzb, (hau.trans hz), hzb⟩
  · apply connected_mono_connected
    rintro u v (hS | ⟨he, hau, hub⟩)
    · exact Connected.rel (Or.inl hS)
    · have hvb : Anc d v b := by
        have := sanc_step hub
        rwa [he.2] at this
      have hu : Connected (fun u v => S u v ∨ (Anc d a u ∧ SAnc d u b ∧ v = b)) u b :=
        Connected.rel (Or.inr ⟨hau, hub, rfl⟩)
      rcases eq_or_ne v b with rfl | hne2
      · exact hu
      · have hvb2 : SAnc d v b := sanc_of_anc_ne hvb hne2
        have hav : Anc d a v := hau.tail he
        have hb : Connected (fun u v => S u v ∨ (Anc d a u ∧ SAnc d u b ∧ v = b)) v b :=
          Connected.rel (Or.inr ⟨hav, hvb2, rfl⟩)
        exact hu.trans hb.symm

theorem uniteAlongPathAux_spec {d : ParallelDendrogram} (hv : ValidDendrogram d)
    {S : Nat → Nat → Prop} {a b : Nat} :
    ∀ (fuel : Nat) (f : AsynchronousUnionFind) (child : Nat),
      d.MaxClusterId ≤ fuel + child →
      Anc d a child → Anc d child b →
      (∀ x y, f.Find x = f.Find y ↔
        Connected (fun u v => S u v ∨ (Anc d a u ∧ SAnc d u child ∧ v = b)) x y) →
      ∀ x y, (uniteAlongPathAux d fuel f child b).Find x =
          (uniteAlongPathAux d fuel f child b).Find y ↔
        Connected (fun u v => S u v ∨ (Anc d a u ∧ SAnc d u b ∧ v = b)) x y := by
  intro fuel
  induction fuel with
  | zero =>
    intro f child hfuel hac hcb hf
    have hcb2 : child = b := by
      by_contra hne
      have hs := sanc_of_anc_ne hcb hne
      have he := sanc_edge hs
      have := (edge_bounds hv he).1
      omega
    subst hcb2
    exact hf
  | succ n ih =>
    intro f child hfuel hac hcb hf
    rw [uniteAlongPathAux]
    by_cases hcase : child = b
    · rw [if_pos hcase]
      subst hcase
      exact hf
    · rw [if_neg hcase]
      have hs : SAnc d child b := sanc_of_anc_ne hcb hcase
      have hedge : edgeTo d child (stepOf d child) := sanc_edge hs
      have hlt : child < stepOf d child := (edge_bounds hv hedge).2.2.2
      apply ih (f.Unite child b) (stepOf d child) (by omega) (hac.tail hedge)
        (sanc_step hs)
      intro x y
      rw [unite_find_iff hf child b]
      apply connected_congr
      intro u v
      constructor
      · rintro ((hS | ⟨hau, huc, rfl⟩) | ⟨rfl, rfl⟩)
        · exact Or.inl hS
        · exact Or.inr ⟨hau, huc.tail hedge, rfl⟩
        · exact Or.inr ⟨hac, Relation.TransGen.single hedge, rfl⟩
      · rintro (hS | ⟨hau, hus, rfl⟩)
        · exact Or.inl (Or.inl hS)
        · rcases eq_or_ne u child with rfl | hne
          · exact Or.inr ⟨rfl, rfl⟩
          · rcases anc_total hau hac with huc | hcu
            · exact Or.inl (Or.inr ⟨hau, sanc_of_anc_ne huc hne, rfl⟩)
            · rcases Relation.ReflTransGen.cases_head hcu with heq | ⟨c2, hc2, htl⟩
              · exact absurd heq.symm hne
              · have hcc : c2 = stepOf d child := hc2.2.symm
                subst hcc
                have h1 := sanc_lt hv hus
                have h2 := anc_le hv htl
                omega

theorem uniteAlongPath_spec {d : ParallelDendrogram} (hv : ValidDendrogram d)
    {S : Nat → Nat → Prop} (hS : ∀ u v, S u v → edgeTo d u v)
    {a b : Nat} (hab : Anc d a b) {f : AsynchronousUnionFind}
    (hf : ∀ x y, f.Find x = f.Find y ↔ Connected S x y) :
    ∀ x y, (UniteAlongPath d f a b).Find x = (UniteAlongPath d f a b).Find y ↔
      Connected (fun u v => S u v ∨ pathEdge d a b u v) x y := by
  intro x y
  unfold UniteAlongPath
  by_cases hfind : f.Find a = f.Find b
  · rw [if_pos hfind, hf]
    have hconn : Connected S a b := (hf a b).mp hfind
    constructor
    · exact connected_mono (fun u v h => Or.inl h)
    · apply connected_mono_connected
      rintro u v (hSuv | ⟨he, hau, hub⟩)
      · exact Connected.rel hSuv
      · have hmem := connected_path_edges hv hS hconn hau hub
        have : v = stepOf d u := he.2.symm
        subst this
        exact Connected.rel hmem
  · rw [if_neg hfind]
    rw [uniteAlongPathAux_spec hv d.MaxClusterId f a (by omega)
      Relation.ReflTransGen.refl hab ?_ x y]
    · exact connected_pairs_iff_path hv hab x y
    · intro u v
      rw [hf]
      apply connected_congr
      intro w z
      constructor
      · exact fun h => Or.inl h
      · rintro (hS2 | ⟨haw, hwa, rfl⟩)
        · exact hS2
        · have h1 := sanc_lt hv hwa
          have h2 := anc_le hv haw
          omega

/-! ### Lemmas: the per-leaf walk -/

theorem segEdge_elim {d : ParallelDendrogram} (hv : ValidDendrogram d)
    {T : ℚ} {k child y : Nat} (h : segEdge d T k child y) :
    ∃ r, SAnc d child r ∧ thresholdTest T (mergeSimilarities d r) = true ∧
      (∀ q, SAnc d child q → thresholdTest T (mergeSimilarities d q) = true →
        Anc d q r) ∧
      (∀ z, Anc d child z → SAnc d z r → segEdge d T k z (stepOf d z)) := by
  obtain ⟨i, hik, he, hanc, hsanc⟩ := h
  have hqual : QualifyingAncestor d T i (lastRoot d T i) ∧
      ∀ q, QualifyingAncestor d T i q → Anc d q (lastRoot d T i) := by
    rcases lastRoot_spec hv T i with ⟨heq, _⟩ | h2
    · exfalso
      rw [heq] at hsanc
      exact sanc_irrefl hv (Relation.TransGen.trans_right hanc hsanc)
    · exact h2
  refine ⟨lastRoot d T i, hsanc, hqual.1.2, ?_, ?_⟩
  · intro q hq hqpass
    exact hqual.2 q ⟨Relation.TransGen.trans_right hanc hq, hqpass⟩
  · intro z hz hzr
    exact ⟨i, hik, sanc_edge hzr, hanc.trans hz, hzr⟩

theorem lastRoot_eq_of_above {d : ParallelDendrogram} (hv : ValidDendrogram d)
    {T : ℚ} {k child r : Nat} (hkc : Anc d k child) (hcr : SAnc d child r)
    (hrpass : thresholdTest T (mergeSimilarities d r) = true)
    (hrtop : ∀ q, SAnc d child q →
      thresholdTest T (mergeSimilarities d q) = true → Anc d q r) :
    lastRoot d T k = r := by
  apply isLastRoot_unique hv (lastRoot_spec hv T k)
  right
  constructor
  · exact ⟨Relation.TransGen.trans_right hkc hcr, hrpass⟩
  · intro q hq
    rcases anc_total (anc_of_sanc hq.1) hkc with hqc | hcq
    · exact hqc.trans (anc_of_sanc hcr)
    · rcases eq_or_ne child q with rfl | hne
      · exact anc_of_sanc hcr
      · exact hrtop q (sanc_of_anc_ne hcq (Ne.symm hne).symm) hq.2

theorem walkAux_spec {d : ParallelDendrogram} (hv : ValidDendrogram d) (T : ℚ)
    {k : Nat} :
    ∀ (fuel : Nat) (f : AsynchronousUnionFind) (child lr : Nat),
      d.MaxClusterId ≤ fuel + child →
      Anc d k child →
      Anc d k lr →
      Anc d lr child →
      (lr = k ∨ (SAnc d k lr ∧ thresholdTest T (mergeSimilarities d lr) = true)) →
      (∀ q, SAnc d k q → Anc d q child →
        thresholdTest T (mergeSimilarities d q) = true → Anc d q lr) →
      (∀ x y, f.Find x = f.Find y ↔
        Connected (fun u v => segEdge d T k u v ∨ pathEdge d k lr u v) x y) →
      ∀ x y, (walkAux d T (mergeSimilarities d) fuel f child lr).Find x =
          (walkAux d T (mergeSimilarities d) fuel f child lr).Find y ↔
        Connected (fun u v => segEdge d T k u v ∨
          pathEdge d k (lastRoot d T k) u v) x y := by
  intro fuel
  induction fuel with
  | zero =>
    intro f child lr hfuel hkc hklr hlrc hcase htop hf x y
    have hnopar : stepOf d child = kInvalidClusterId := by
      apply stepOf_eq_of_ge_length
      rw [hv.2.1]
      omega
    have heq : lastRoot d T k = lr :=
      isLastRoot_unique hv (lastRoot_spec hv T k)
        (isLastRoot_of_top hv hnopar hkc hcase htop)
    rw [walkAux, heq]
    exact hf x y
  | succ n ih =>
    intro f child lr hfuel hkc hklr hlrc hcase htop hf x y
    rw [walkAux]
    by_cases hnopar : stepOf d child = kInvalidClusterId
    · rw [if_pos hnopar]
      have heq : lastRoot d T k = lr :=
        isLastRoot_unique hv (lastRoot_spec hv T k)
          (isLastRoot_of_top hv hnopar hkc hcase htop)
      rw [heq]
      exact hf x y
    · rw [if_neg hnopar]
      have hedge : edgeTo d child (stepOf d child) := ⟨hnopar, rfl⟩
      have hlt := (edge_bounds hv hedge).2.2.2
      have hS : ∀ u v, (segEdge d T k u v ∨ pathEdge d k lr u v) → edgeTo d u v := by
        rintro u v (⟨i, _, he, _, _⟩ | ⟨he, _, _⟩) <;> exact he
      by_cases hfind : f.Find child = f.Find (stepOf d child)
      · rw [if_pos hfind]
        have hconn := (hf child (stepOf d child)).mp hfind
        have hmem := connected_edge_mem hv hS hedge hconn
        have hseg : segEdge d T k child (stepOf d child) := by
          rcases hmem with h | h
          · exact h
          · exact absurd (Relation.TransGen.trans_left h.2.2 hlrc) (sanc_irrefl hv)
        obtain ⟨r, hcr, hrpass, hrtop, hredges⟩ := segEdge_elim hv hseg
        have hlrk : lastRoot d T k = r := lastRoot_eq_of_above hv hkc hcr hrpass hrtop
        have hac : Anc d child r := anc_of_sanc hcr
        rw [uniteAlongPath_spec hv hS hlrc hf x y, hlrk]
        constructor
        · apply connected_mono_connected
          rintro u v ((h | h) | h)
          · exact Connected.rel (Or.inl h)
          · exact Connected.rel (Or.inr
              ⟨h.1, h.2.1, Relation.TransGen.trans_left h.2.2 (hlrc.trans hac)⟩)
          · exact Connected.rel (Or.inr
              ⟨h.1, hklr.trans h.2.1, Relation.TransGen.trans_left h.2.2 hac⟩)
        · apply connected_mono_connected
          rintro u v (h | h)
          · exact Connected.rel (Or.inl (Or.inl h))
          · obtain ⟨he, hku, hur⟩ := h
            rcases anc_total hku hkc with huc | hcu
            · rcases eq_or_ne u child with rfl | hne
              · have hveq : v = stepOf d u := he.2.symm
                subst hveq
                exact Connected.rel (Or.inl (Or.inl hseg))
              · have husc : SAnc d u child := sanc_of_anc_ne huc hne
                rcases anc_total hku hklr with hulr | hlru
                · rcases eq_or_ne u lr with rfl | hne2
                  · exact Connected.rel (Or.inr ⟨he, Relation.ReflTransGen.refl, husc⟩)
                  · exact Connected.rel (Or.inl (Or.inr
                      ⟨he, hku, sanc_of_anc_ne hulr hne2⟩))
                · exact Connected.rel (Or.inr ⟨he, hlru, husc⟩)
            · have hveq : v = stepOf d u := he.2.symm
              subst hveq
              exact Connected.rel (Or.inl (Or.inl (hredges u hcu hur)))
      · rw [if_neg hfind]
        by_cases hpass : thresholdTest T (mergeSimilarities d (stepOf d child)) = true
        · rw [if_pos hpass]
          have hlrp : Anc d lr (stepOf d child) := hlrc.tail hedge
          have hf2 := uniteAlongPath_spec hv hS hlrp hf
          have hf3 : ∀ x y,
              (UniteAlongPath d f lr (stepOf d child)).Find x =
                (UniteAlongPath d f lr (stepOf d child)).Find y ↔
              Connected (fun u v => segEdge d T k u v ∨
                pathEdge d k (stepOf d child) u v) x y := by
            intro x2 y2
            rw [hf2 x2 y2]
            apply connected_congr
            intro u v
            constructor
            · rintro ((h | h) | h)
              · exact Or.inl h
              · exact Or.inr ⟨h.1, h.2.1, Relation.TransGen.trans_left h.2.2 hlrp⟩
              · exact Or.inr ⟨h.1, hklr.trans h.2.1, h.2.2⟩
            · rintro (h | h)
              · exact Or.inl (Or.inl h)
              · obtain ⟨he2, hku, hup⟩ := h
                rcases anc_total hku hklr with hulr | hlru
                · rcases eq_or_ne u lr with rfl | hne2
                  · exact Or.inr ⟨he2, Relation.ReflTransGen.refl, hup⟩
                  · exact Or.inl (Or.inr ⟨he2, hku, sanc_of_anc_ne hulr hne2⟩)
                · exact Or.inr ⟨he2, hlru, hup⟩
          exact ih _ (stepOf d child) (stepOf d child) (by omega) (hkc.tail hedge)
            (hkc.tail hedge) Relation.ReflTransGen.refl
            (Or.inr ⟨Relation.TransGen.tail' hkc hedge, hpass⟩)
            (fun q _ hq _ => hq) hf3 x y
        · rw [if_neg hpass]
          apply ih f (stepOf d child) lr (by omega) (hkc.tail hedge) hklr
            (hlrc.tail hedge) hcase ?_ hf x y
          intro q hkq hqp hqpass
          rcases anc_total (anc_of_sanc hkq) hkc with hqc | hcq
          · exact htop q hkq hqc hqpass
          · rcases Relation.ReflTransGen.cases_head hcq with heq | ⟨c2, hc2, htl⟩
            · subst heq
              exact htop child hkq Relation.ReflTransGen.refl hqpass
            · have hcc : c2 = stepOf d child := hc2.2.symm
              subst hcc
              have hqeq : q = stepOf d child := anc_antisymm hv hqp htl
              subst hqeq
              exact absurd hqpass hpass

/-! ### Lemmas: the subtree clustering partition -/

theorem subtree_foldl_spec {d : ParallelDendrogram} (hv : ValidDendrogram d) (T : ℚ) :
    ∀ (j : Nat) (x y : Nat),
      (((List.range j).foldl
        (fun f i => walkAux d T (mergeSimilarities d) d.MaxClusterId f i i)
        AsynchronousUnionFind.init).Find x =
       ((List.range j).foldl
        (fun f i => walkAux d T (mergeSimilarities d) d.MaxClusterId f i i)
        AsynchronousUnionFind.init).Find y) ↔
      Connected (segEdge d T j) x y := by
  intro j
  induction j with
  | zero =>
    intro x y
    rw [List.range_zero, List.foldl_nil]
    show x = y ↔ _
    rw [← connected_empty x y]
    apply connected_congr
    intro u v
    constructor
    · intro h
      exact absurd h (fun h2 => h2)
    · rintro ⟨i, hi, _⟩
      omega
  | succ n ih =>
    intro x y
    rw [List.range_succ, List.foldl_append, List.foldl_cons, List.foldl_nil]
    have hinit : ∀ x y,
        (((List.range n).foldl
          (fun f i => walkAux d T (mergeSimilarities d) d.MaxClusterId f i i)
          AsynchronousUnionFind.init).Find x =
         ((List.range n).foldl
          (fun f i => walkAux d T (mergeSimilarities d) d.MaxClusterId f i i)
          AsynchronousUnionFind.init).Find y) ↔
        Connected (fun u v => segEdge d T n u v ∨ pathEdge d n n u v) x y := by
      intro x2 y2
      rw [ih x2 y2]
      apply connected_congr
      intro u v
      constructor
      · intro h
        exact Or.inl h
      · rintro (h | ⟨he, hnu, hun⟩)
        · exact h
        · exact absurd (Relation.TransGen.trans_right hnu hun) (sanc_irrefl hv)
    rw [walkAux_spec hv T d.MaxClusterId _ n n (by omega)
      Relation.ReflTransGen.refl Relation.ReflTransGen.refl
      Relation.ReflTransGen.refl (Or.inl rfl) ?_ hinit x y]
    · apply connected_congr
      intro u v
      constructor
      · rintro (⟨i, hi, hp⟩ | hp)
        · exact ⟨i, by omega, hp⟩
        · exact ⟨n, by omega, hp⟩
      · rintro ⟨i, hi, hp⟩
        rcases eq_or_ne i n with rfl | hne
        · exact Or.inr hp
        · exact Or.inl ⟨i, by omega, hp⟩
    · intro q hq hqn _
      have h1 := sanc_lt hv hq
      have h2 := anc_le hv hqn
      omega

theorem subtreeUF_find_iff {d : ParallelDendrogram} (hv : ValidDendrogram d) (T : ℚ)
    (x y : Nat) :
    (subtreeUF d T).Find x = (subtreeUF d T).Find y ↔
      Connected (segEdge d T d.num_nodes) x y := by
  unfold subtreeUF
  exact subtree_foldl_spec hv T d.num_nodes x y

theorem segEdge_lastRoot_eq {d : ParallelDendrogram} (hv : ValidDendrogram d)
    {T : ℚ} {k u v : Nat} (h : segEdge d T k u v) :
    lastRoot d T u = lastRoot d T v := by
  obtain ⟨r, hur, hpass, _, _⟩ := segEdge_elim hv h
  obtain ⟨i0, _, he, _, _⟩ := h
  have hstep := lastRoot_step_eq hv ⟨he.1, rfl⟩ ⟨hur, hpass⟩ (sanc_step hur)
  rwa [he.2] at hstep

theorem connected_seg_iff_lastRoot {d : ParallelDendrogram} (hv : ValidDendrogram d)
    (T : ℚ) {i j : Nat} (hi : i < d.num_nodes) (hj : j < d.num_nodes) :
    Connected (segEdge d T d.num_nodes) i j ↔ lastRoot d T i = lastRoot d T j := by
  constructor
  · intro h
    exact connected_ker (fun a b hab => segEdge_lastRoot_eq hv hab) h
  · intro heq
    have hci : Connected (segEdge d T d.num_nodes) i (lastRoot d T i) := by
      apply connected_of_path (lastRoot_anc hv T i)
      intro z hz hzr
      exact ⟨i, hi, sanc_edge hzr, hz, hzr⟩
    have hcj : Connected (segEdge d T d.num_nodes) j (lastRoot d T j) := by
      apply connected_of_path (lastRoot_anc hv T j)
      intro z hz hzr
      exact ⟨j, hj, sanc_edge hzr, hz, hzr⟩
    rw [heq] at hci
    exact hci.trans hcj.symm

theorem subtree_partition {d : ParallelDendrogram} (hv : ValidDendrogram d) (T : ℚ)
    {i j : Nat} (hi : i < d.num_nodes) (hj : j < d.num_nodes) :
    ((subtreeUF d T).Find i = (subtreeUF d T).Find j) ↔
      lastRoot d T i = lastRoot d T j := by
  rw [subtreeUF_find_iff hv T i j]
  exact connected_seg_iff_lastRoot hv T hi hj

/-! ### Lemmas: the threshold-cut clustering partition -/

theorem mem_clusteringPairs {d : ParallelDendrogram} (hv : ValidDendrogram d)
    {T : ℚ} {u v : Nat} :
    ((u, v) ∈ clusteringPairs d T) ↔ passEdge d T u v := by
  unfold clusteringPairs passEdge
  rw [List.mem_filterMap]
  constructor
  · rintro ⟨a, ha, hfa⟩
    by_cases hc : stepOf d a ≠ kInvalidClusterId ∧ thresholdTest T (simOf d a) = true
    · rw [if_pos hc] at hfa
      have h1 : a = u := (Option.some_inj.mp hfa ▸ rfl : (a, stepOf d a).1 = u)
      have h2 : stepOf d a = v := (Option.some_inj.mp hfa ▸ rfl : (a, stepOf d a).2 = v)
      subst h1
      exact ⟨⟨hc.1, h2⟩, hc.2⟩
    · rw [if_neg hc] at hfa
      exact absurd hfa (Option.noConfusion)
  · rintro ⟨⟨hne, hstep⟩, htest⟩
    refine ⟨u, ?_, ?_⟩
    · rw [List.mem_range]
      exact (edge_bounds hv ⟨hne, hstep⟩).1
    · rw [if_pos ⟨hne, htest⟩, hstep]

theorem clusteringUF_find_iff {d : ParallelDendrogram} (hv : ValidDendrogram d)
    (T : ℚ) (x y : Nat) :
    (clusteringUF d T).Find x = (clusteringUF d T).Find y ↔
      Connected (passEdge d T) x y := by
  unfold clusteringUF
  rw [applyUnites_find_iff]
  apply connected_congr
  intro u v
  exact mem_clusteringPairs hv

/-! ### Lemmas: the threshold test -/

theorem almostEquals_refl (a : ℚ) : AlmostEquals a a = true := by
  unfold AlmostEquals
  rw [decide_eq_true_iff]
  simp

theorem thresholdTest_of_le {T s : ℚ} (h : T ≤ s) : thresholdTest T s = true := by
  unfold thresholdTest
  rw [Bool.or_eq_true]
  rcases eq_or_lt_of_le h with rfl | hlt
  · right
    exact almostEquals_refl T
  · left
    exact decide_eq_true hlt

theorem div_tol_iff {A M D : ℚ} (hD : 0 < D) :
    A / D ≤ 1 / 2 ^ 20 * (M / D) ↔ 2 ^ 20 * A ≤ M := by
  rw [div_mul_div_comm, one_mul, div_le_div_iff hD (by positivity)]
  constructor
  · intro h
    have h2 : A * (2 ^ 20 * D) = 2 ^ 20 * A * D := by ring
    rw [h2] at h
    exact le_of_mul_le_mul_right h hD
  · intro h
    have h2 : A * (2 ^ 20 * D) = 2 ^ 20 * A * D := by ring
    rw [h2]
    exact mul_le_mul_of_nonneg_right h (le_of_lt hD)

theorem almostEquals_iff (a b : ℚ) :
    AlmostEquals a b = true ↔
      |a - b| ≤ kAlmostEqualsTolerance * max |a| |b| := by
  unfold AlmostEquals kAlmostEqualsTolerance
  rw [decide_eq_true_iff]
  have hda : (0 : ℚ) < (a.den : ℚ) := by
    exact_mod_cast a.den_pos
  have hdb : (0 : ℚ) < (b.den : ℚ) := by
    exact_mod_cast b.den_pos
  have hD : (0 : ℚ) < (a.den : ℚ) * (b.den : ℚ) := mul_pos hda hdb
  have key : |a - b| =
      (((a.num * (b.den : ℤ) - b.num * (a.den : ℤ)).natAbs : ℚ)) /
        ((a.den : ℚ) * (b.den : ℚ)) := by
    conv_lhs => rw [← Rat.num_div_den a, ← Rat.num_div_den b]
    rw [div_sub_div _ _ (ne_of_gt hda) (ne_of_gt hdb), abs_div,
      abs_of_pos hD, Int.cast_natAbs]
    push_cast
    ring_nf
  have keya : |a| = ((a.num.natAbs : ℚ) * (b.den : ℚ)) / ((a.den : ℚ) * (b.den : ℚ)) := by
    conv_lhs => rw [← Rat.num_div_den a]
    rw [abs_div, abs_of_pos hda, Int.cast_natAbs]
    rw [div_eq_div_iff (ne_of_gt hda) (ne_of_gt hD)]
    push_cast
    ring
  have keyb : |b| = ((b.num.natAbs : ℚ) * (a.den : ℚ)) / ((a.den : ℚ) * (b.den : ℚ)) := by
    conv_lhs => rw [← Rat.num_div_den b]
    rw [abs_div, abs_of_pos hdb, Int.cast_natAbs]
    rw [div_eq_div_iff (ne_of_gt hdb) (ne_of_gt hD)]
    push_cast
    ring
  rw [key, keya, keyb, max_div_div_right (le_of_lt hD), div_tol_iff hD]
  norm_cast

theorem kAlmostEqualsTolerance_pos : (0 : ℚ) < kAlmostEqualsTolerance := by
  unfold kAlmostEqualsTolerance
  norm_num

theorem kAlmostEqualsTolerance_lt_one : kAlmostEqualsTolerance < 1 := by
  unfold kAlmostEqualsTolerance
  norm_num

theorem thresholdTest_mono {T s1 s2 : ℚ} (hle : s2 ≤ s1)
    (h : thresholdTest T s2 = true) : thresholdTest T s1 = true := by
  unfold thresholdTest at h ⊢
  rw [Bool.or_eq_true, decide_eq_true_iff] at h ⊢
  rcases h with h | h
  · left
    exact lt_of_lt_of_le h hle
  · by_cases hs1 : T < s1
    · left
      exact hs1
    · right
      push_neg at hs1
      rw [almostEquals_iff] at h ⊢
      have hs2T : s2 ≤ T := le_trans hle hs1
      rw [abs_of_nonpos (by linarith : s2 - T ≤ 0)] at h
      rw [abs_of_nonpos (by linarith : s1 - T ≤ 0)]
      have hε0 := kAlmostEqualsTolerance_pos
      have hε1 := kAlmostEqualsTolerance_lt_one
      rcases le_total |s2| |T| with hcase | hcase
      · rw [max_eq_right hcase] at h
        have hmax : |T| ≤ max |s1| |T| := le_max_right |s1| |T|
        have hmul : kAlmostEqualsTolerance * |T| ≤
            kAlmostEqualsTolerance * max |s1| |T| :=
          mul_le_mul_of_nonneg_left hmax (le_of_lt hε0)
        linarith
      · rw [max_eq_left hcase] at h
        rcases le_or_lt 0 s2 with hs2 | hs2
        · have hT0 : 0 ≤ T := le_trans hs2 hs2T
          have habs2 : |s2| = s2 := abs_of_nonneg hs2
          have habsT : |T| = T := abs_of_nonneg hT0
          have h1 : |s2| ≤ |T| := by
            rw [habs2, habsT]
            exact hs2T
          have hmul : kAlmostEqualsTolerance * |s2| ≤
              kAlmostEqualsTolerance * max |s1| |T| :=
            mul_le_mul_of_nonneg_left
              (le_trans h1 (le_max_right |s1| |T|)) (le_of_lt hε0)
          linarith
        · have habs2 : |s2| = -s2 := abs_of_neg hs2
          rw [habs2] at h
          have hTneg : T ≤ s2 * (1 - kAlmostEqualsTolerance) := by nlinarith
          have hT0 : T < 0 := by nlinarith
          have hs10 : s1 < 0 := lt_of_le_of_lt hs1 hT0
          have habs1 : |s1| = -s1 := abs_of_neg hs10
          have hstep : s2 * (1 - kAlmostEqualsTolerance) ≤
              s1 * (1 - kAlmostEqualsTolerance) :=
            mul_le_mul_of_nonneg_right hle (by linarith)
          have hgoal : T - s1 ≤ kAlmostEqualsTolerance * |s1| := by
            rw [habs1]
            nlinarith
          have hmax : kAlmostEqualsTolerance * |s1| ≤
              kAlmostEqualsTolerance * max |s1| |T| :=
            mul_le_mul_of_nonneg_left (le_max_left |s1| |T|) (le_of_lt hε0)
          linarith

/-! ### Lemmas: monotone dendrograms -/

theorem sim_antitone {d : ParallelDendrogram} (hv : ValidDendrogram d)
    (hm : MonotonePaths d) {z w : Nat} (h : Anc d z w)
    (hw : stepOf d w ≠ kInvalidClusterId) : simOf d w ≤ simOf d z := by
  induction h with
  | refl => exact le_refl _
  | @tail b c hab hbc ih =>
    have hbm := (edge_bounds hv hbc).1
    have h1 := hm b hbm hbc.1 (by rw [hbc.2]; exact hw)
    rw [hbc.2] at h1
    exact le_trans h1 (ih hbc.1)

theorem mergeSimilarities_eq_sim {d : ParallelDendrogram} (hv : ValidDendrogram d)
    (hu : UniformMergeSimilarities d) (hn : NonnegativeSimilarities d)
    {c p : Nat} (he : edgeTo d c p) : mergeSimilarities d p = simOf d c := by
  have hle := sim_le_mergeSimilarities hv he
  rcases mergeSimilarities_cases d p with h0 | ⟨c2, hc2m, he2, hs2⟩
  · have h1 : 0 ≤ simOf d c := hn c (edge_bounds hv he).1 he.1
    rw [h0] at hle ⊢
    linarith
  · rw [← hs2]
    exact hu c2 hc2m c (edge_bounds hv he).1 he2.1 he.1
      (he2.2.trans he.2.symm)

theorem passEdge_lastRoot_eq {d : ParallelDendrogram} (hv : ValidDendrogram d)
    (hu : UniformMergeSimilarities d) (hn : NonnegativeSimilarities d)
    {T : ℚ} {u v : Nat} (h : passEdge d T u v) :
    lastRoot d T u = lastRoot d T v := by
  obtain ⟨he, htest⟩ := h
  have hms : mergeSimilarities d (stepOf d u) = simOf d u :=
    mergeSimilarities_eq_sim hv hu hn ⟨he.1, rfl⟩
  have hq0 : QualifyingAncestor d T u (stepOf d u) := by
    refine ⟨Relation.TransGen.single ⟨he.1, rfl⟩, ?_⟩
    rw [hms]
    exact htest
  have := lastRoot_step_eq hv ⟨he.1, rfl⟩ hq0 Relation.ReflTransGen.refl
  rwa [he.2] at this

theorem lastRoot_connected_passEdge {d : ParallelDendrogram} (hv : ValidDendrogram d)
    (hm : MonotonePaths d) (hu : UniformMergeSimilarities d)
    (hn : NonnegativeSimilarities d) (T : ℚ) (i : Nat) :
    Connected (passEdge d T) i (lastRoot d T i) := by
  apply connected_of_path (lastRoot_anc hv T i)
  intro z hz hzr
  refine ⟨sanc_edge hzr, ?_⟩
  rcases lastRoot_spec hv T i with ⟨heq, _⟩ | ⟨⟨hsi, hpass⟩, _⟩
  · exfalso
    rw [heq] at hzr
    exact sanc_irrefl hv (Relation.TransGen.trans_right hz hzr)
  · obtain ⟨c, hzc, hcr⟩ := (Relation.TransGen.tail'_iff).mp hzr
    have hms : mergeSimilarities d (lastRoot d T i) = simOf d c :=
      mergeSimilarities_eq_sim hv hu hn hcr
    rw [hms] at hpass
    exact thresholdTest_mono (sim_antitone hv hm hzc hcr.1) hpass

theorem monotone_partitions_eq {d : ParallelDendrogram} (hv : ValidDendrogram d)
    (hm : MonotonePaths d) (hu : UniformMergeSimilarities d)
    (hn : NonnegativeSimilarities d) (T : ℚ) {i j : Nat}
    (hi : i < d.num_nodes) (hj : j < d.num_nodes) :
    ((clusteringUF d T).Find i = (clusteringUF d T).Find j) ↔
      ((subtreeUF d T).Find i = (subtreeUF d T).Find j) := by
  rw [clusteringUF_find_iff hv T i j, subtree_partition hv T hi hj]
  constructor
  · intro h
    exact connected_ker (fun a b hab => passEdge_lastRoot_eq hv hu hn hab) h
  · intro heq
    have hci := lastRoot_connected_passEdge hv hm hu hn T i
    have hcj := lastRoot_connected_passEdge hv hm hu hn T j
    rw [heq] at hci
    exact hci.trans hcj.symm

/-! ### Lemmas: roots and single trees -/

theorem exists_root_aux {d : ParallelDendrogram} (hv : ValidDendrogram d) :
    ∀ (k x : Nat), d.MaxClusterId - x ≤ k → x < d.MaxClusterId →
      ∃ rt, Anc d x rt ∧ stepOf d rt = kInvalidClusterId ∧ rt < d.MaxClusterId := by
  intro k
  induction k with
  | zero =>
    intro x hk hx
    omega
  | succ n ih =>
    intro x hk hx
    by_cases hstep : stepOf d x = kInvalidClusterId
    · exact ⟨x, Relation.ReflTransGen.refl, hstep, hx⟩
    · have hedge : edgeTo d x (stepOf d x) := ⟨hstep, rfl⟩
      obtain ⟨hxm, hn2, hm2, hlt⟩ := edge_bounds hv hedge
      obtain ⟨rt, h1, h2, h3⟩ := ih (stepOf d x) (by omega) hm2
      exact ⟨rt, h1.head hedge, h2, h3⟩

theorem exists_root {d : ParallelDendrogram} (hv : ValidDendrogram d) {x : Nat}
    (hx : x < d.MaxClusterId) :
    ∃ rt, Anc d x rt ∧ stepOf d rt = kInvalidClusterId ∧ rt < d.MaxClusterId :=
  exists_root_aux hv d.MaxClusterId x (by omega) hx

theorem two_le_length_of_mem {α : Type} {l : List α} {a b : α} (ha : a ∈ l)
    (hb : b ∈ l) (hne : a ≠ b) : 2 ≤ l.length := by
  rcases l with _ | ⟨x, xs⟩
  · exact absurd ha (List.not_mem_nil a)
  · rcases xs with _ | ⟨y, ys⟩
    · rw [List.mem_singleton] at ha hb
      exact absurd (ha.trans hb.symm) hne
    · simp only [List.length_cons]
      omega

theorem singleTree_root_unique {d : ParallelDendrogram} (hst : SingleTree d)
    {p1 p2 : Nat} (h1 : p1 < d.MaxClusterId) (h2 : p2 < d.MaxClusterId)
    (hp1 : stepOf d p1 = kInvalidClusterId) (hp2 : stepOf d p2 = kInvalidClusterId) :
    p1 = p2 := by
  by_contra hne
  unfold SingleTree at hst
  have hmem : ∀ p, p < d.MaxClusterId → stepOf d p = kInvalidClusterId →
      p ∈ (List.range d.MaxClusterId).filter (fun x => !(d.HasValidParent x)) := by
    intro p hp hps
    rw [List.mem_filter, List.mem_range]
    refine ⟨hp, ?_⟩
    have : d.HasValidParent p = false := by
      unfold ParallelDendrogram.HasValidParent
      rw [show (d.GetParent p).parent_id = kInvalidClusterId from hps]
      simp
    rw [this]
    rfl
  have := two_le_length_of_mem (hmem p1 h1 hp1) (hmem p2 h2 hp2) hne
  omega

theorem clusteringPairs_eq_nil {d : ParallelDendrogram} {T : ℚ}
    (h : ∀ x, x < d.MaxClusterId → stepOf d x ≠ kInvalidClusterId →
      thresholdTest T (simOf d x) = false) :
    clusteringPairs d T = [] := by
  unfold clusteringPairs
  rw [List.filterMap_eq_nil]
  intro a ha
  rw [List.mem_range] at ha
  rw [if_neg]
  rintro ⟨h1, h2⟩
  rw [h a ha h1] at h2
  exact Bool.noConfusion h2

theorem getClustering_id {d : ParallelDendrogram} {T : ℚ}
    (hpairs : clusteringPairs d T = []) :
    d.GetClustering T = (List.range d.num_nodes).map (fun i => (i, i)) := by
  unfold ParallelDendrogram.GetClustering clusteringUF
  rw [hpairs]
  rfl

theorem lastRoot_of_leaf_below {d : ParallelDendrogram} (hv : ValidDendrogram d)
    {T : ℚ} {i j : Nat} (hj : j < d.num_nodes)
    (hq : QualifyingAncestor d T i (lastRoot d T i))
    (htop : ∀ q, QualifyingAncestor d T i q → Anc d q (lastRoot d T i))
    (hanc : Anc d j (lastRoot d T i)) : lastRoot d T j = lastRoot d T i := by
  have hge : d.num_nodes ≤ lastRoot d T i := (sanc_bounds hv hq.1).1
  have hne : j ≠ lastRoot d T i := by omega
  apply isLastRoot_unique hv (lastRoot_spec hv T j)
  right
  refine ⟨⟨sanc_of_anc_ne hanc hne, hq.2⟩, ?_⟩
  intro q hqq
  rcases anc_total (anc_of_sanc hqq.1) hanc with hqr | hrq
  · exact hqr
  · rcases eq_or_ne (lastRoot d T i) q with rfl | hne2
    · exact Relation.ReflTransGen.refl
    · have hsrq : SAnc d (lastRoot d T i) q := sanc_of_anc_ne hrq hne2
      have hiq : SAnc d i q :=
        Relation.TransGen.trans_right (anc_of_sanc hq.1) hsrq
      exact htop q ⟨hiq, hqq.2⟩

/-! ### Claim theorems -/

/-- C1: for every dendrogram built by a valid merge sequence and every
threshold T, GetClustering returns one (leaf, representative) pair per leaf
(in leaf order), and two leaves receive the same representative iff they are
connected in the dendrogram through a chain of parent edges each of whose
merge similarity is greater than T or almost-equal to T. -/
theorem claim_C1_getClustering_partition (d : ParallelDendrogram)
    (hv : ValidDendrogram d) (T : ℚ) :
    (d.GetClustering T).length = d.num_nodes ∧
    (∀ i, i < d.num_nodes →
      (d.GetClustering T).getD i (0, 0) = (i, (clusteringUF d T).Find i)) ∧
    (∀ i, i < d.num_nodes → ∀ j, j < d.num_nodes →
      ((clusteringUF d T).Find i = (clusteringUF d T).Find j ↔
        Connected (passEdge d T) i j)) := by
  refine ⟨?_, ?_, ?_⟩
  · unfold ParallelDendrogram.GetClustering
    rw [List.length_map, List.length_range]
  · intro i hi
    unfold ParallelDendrogram.GetClustering
    rw [List.getD_eq_getElem?_getD, List.getElem?_map, List.getElem?_range hi]
    rfl
  · intro i _ j _
    exact clusteringUF_find_iff hv T i j

/-- C1 witness: the partition characterization instantiated on the concrete
example dendrogram. -/
theorem claim_C1_witness :
    (clusteringUF exampleDendrogram3 q1o2).Find 0 =
        (clusteringUF exampleDendrogram3 q1o2).Find 1 ↔
      Connected (passEdge exampleDendrogram3 q1o2) 0 1 :=
  (claim_C1_getClustering_partition exampleDendrogram3 (by decide) q1o2).2.2
    0 (by decide) 1 (by decide)

/-- C2 counterexample: on the dendrogram with two leaves merged into cluster
2 with similarity -1 on both edges, at threshold -1/2 the claim ("incoming
merge = the maximum similarity among direct child edges") predicts that leaf
0 has no qualifying ancestor (that maximum is -1, which fails against -1/2)
and thus forms a singleton group, but GetSubtreeClustering groups leaves 0
and 1 together, because the preprocessed per-cluster similarity is clamped
at 0. -/
theorem claim_C2_counterexample :
    (∀ q, ¬ ClaimQualifyingAncestor cexNegative qm1o2 0 q) ∧
    (subtreeUF cexNegative qm1o2).Find 0 = (subtreeUF cexNegative qm1o2).Find 1 := by
  constructor
  · rintro q ⟨hs, s, ⟨⟨c, hc, hcs⟩, _⟩, htest⟩
    have hq2 : q = 2 := by
      obtain ⟨b, hb, hbq⟩ := (Relation.TransGen.head'_iff).mp hs
      have hb2 : b = 2 := hb.2.symm
      subst hb2
      exact anc_parentless hbq rfl
    subst hq2
    have hclen : c < 3 := by
      by_contra hge
      push_neg at hge
      have hinv : stepOf cexNegative c = kInvalidClusterId := by
        apply stepOf_eq_of_ge_length
        exact hge
      exact hc.1 hinv
    have hcs2 : s = qm1 := by
      interval_cases c
      · rw [← hcs]
        rfl
      · rw [← hcs]
        rfl
      · exact absurd rfl hc.1
    subst hcs2
    exact absurd htest (by decide)
  · decide

/-- C2 amended: with the incoming merge of an ancestor taken as the value of
the 0-initialized preprocessing array (the maximum of 0 and the child-edge
similarities), GetSubtreeClustering assigns two leaves the same
representative iff they have the same last qualifying ancestor, and a leaf
with no qualifying ancestor is emitted as its own singleton group. -/
theorem claim_C2_subtree_semantics (d : ParallelDendrogram)
    (hv : ValidDendrogram d) (T : ℚ) :
    (∀ i, i < d.num_nodes → ∀ j, j < d.num_nodes →
      ((subtreeUF d T).Find i = (subtreeUF d T).Find j ↔
        ∃ r, IsLastRoot d T i r ∧ IsLastRoot d T j r)) ∧
    (∀ i, i < d.num_nodes → (∀ q, ¬ QualifyingAncestor d T i q) →
      ∀ j, j < d.num_nodes → j ≠ i →
        (subtreeUF d T).Find j ≠ (subtreeUF d T).Find i) := by
  constructor
  · intro i hi j hj
    rw [subtree_partition hv T hi hj]
    constructor
    · intro heq
      refine ⟨lastRoot d T i, lastRoot_spec hv T i, ?_⟩
      rw [heq]
      exact lastRoot_spec hv T j
    · rintro ⟨r, h1, h2⟩
      rw [isLastRoot_unique hv (lastRoot_spec hv T i) h1,
        isLastRoot_unique hv (lastRoot_spec hv T j) h2]
  · intro i hi hnoq j hj hne heq
    have hpart := (subtree_partition hv T hj hi).mp heq
    have hlri : lastRoot d T i = i :=
      isLastRoot_unique hv (lastRoot_spec hv T i) (Or.inl ⟨rfl, hnoq⟩)
    rw [hlri] at hpart
    rcases lastRoot_spec hv T j with ⟨heqj, _⟩ | ⟨⟨hs, _⟩, _⟩
    · rw [heqj] at hpart
      exact hne hpart
    · rw [hpart] at hs
      have := (sanc_bounds hv hs).1
      omega

/-- C2 witness: the amended semantics instantiated on the concrete example
dendrogram. -/
theorem claim_C2_witness :
    (subtreeUF exampleDendrogram3 q1o2).Find 0 =
        (subtreeUF exampleDendrogram3 q1o2).Find 1 ↔
      ∃ r, IsLastRoot exampleDendrogram3 q1o2 0 r ∧
        IsLastRoot exampleDendrogram3 q1o2 1 r :=
  (claim_C2_subtree_semantics exampleDendrogram3 (by decide) q1o2).1
    0 (by decide) 1 (by decide)

/-- C3: every group emitted by GetSubtreeClustering is the set of leaves
descending from one single node of the dendrogram: for every leaf i there is
a node r above i such that a leaf j shares the representative of i exactly
when j descends from r (so each group is a connected subtree, never a union
of disjoint branches). -/
theorem claim_C3_subtree_groups (d : ParallelDendrogram)
    (hv : ValidDendrogram d) (T : ℚ) :
    ∀ i, i < d.num_nodes → ∃ r, Anc d i r ∧
      ∀ j, j < d.num_nodes →
        ((subtreeUF d T).Find j = (subtreeUF d T).Find i ↔ Anc d j r) := by
  intro i hi
  refine ⟨lastRoot d T i, lastRoot_anc hv T i, ?_⟩
  intro j hj
  rw [subtree_partition hv T hj hi]
  constructor
  · intro heq
    rw [← heq]
    exact lastRoot_anc hv T j
  · intro hanc
    rcases lastRoot_spec hv T i with ⟨heqi, _⟩ | ⟨hq, htop⟩
    · rw [heqi] at hanc ⊢
      rcases eq_or_ne j i with rfl | hne
      · exact heqi
      · have hs := sanc_of_anc_ne hanc hne
        have := (sanc_bounds hv hs).1
        omega
    · exact lastRoot_of_leaf_below hv hj hq htop hanc

/-- C3 witness: the subtree-group property instantiated on the concrete
example dendrogram. -/
theorem claim_C3_witness :
    ∃ r, Anc exampleDendrogram3 0 r ∧
      ∀ j, j < exampleDendrogram3.num_nodes →
        ((subtreeUF exampleDendrogram3 q1o2).Find j =
            (subtreeUF exampleDendrogram3 q1o2).Find 0 ↔
          Anc exampleDendrogram3 j r) :=
  claim_C3_subtree_groups exampleDendrogram3 (by decide) q1o2 0 (by decide)

/-- C4 counterexample: on the concrete non-monotone dendrogram of the claim,
GetSubtreeClustering at threshold 1/2 places leaf 0 in the same group as
leaf 2, contradicting the claim that leaves 0 and 1 remain singletons. -/
theorem claim_C4_counterexample :
    (subtreeUF exampleDendrogram3 q1o2).Find 0 =
      (subtreeUF exampleDendrogram3 q1o2).Find 2 := by
  decide

/-- C4 amended: on the dendrogram with merges (0 -> 3, 0.3), (1 -> 3, 0.3),
(3 -> 4, 0.8), (2 -> 4, 0.8), GetSubtreeClustering at threshold 1/2 groups
all three leaves into the single cluster rooted at node 4: node 4 is the
last ancestor of every leaf whose incoming merge (0.8) passes the threshold,
and the failing 0.3 edges are crossed on the way. -/
theorem claim_C4_all_leaves_grouped :
    exampleDendrogram3.GetSubtreeClustering q1o2 = [(0, 4), (1, 4), (2, 4)] := by
  decide

/-- C5 counterexample: a valid dendrogram with monotone (single-edge)
leaf-to-root paths on which GetClustering and GetSubtreeClustering induce
different partitions at threshold 0.7: the two children of cluster 2
registered different similarities (0.9 and 0.5), so the edge test of
GetClustering separates the leaves while the per-cluster maximum of
GetSubtreeClustering joins them. -/
theorem claim_C5_counterexample :
    ValidDendrogram cexNonuniform ∧ MonotonePaths cexNonuniform ∧
    (clusteringUF cexNonuniform q7o10).Find 0 ≠
      (clusteringUF cexNonuniform q7o10).Find 1 ∧
    (subtreeUF cexNonuniform q7o10).Find 0 =
      (subtreeUF cexNonuniform q7o10).Find 1 := by
  decide

/-- C5 amended: if additionally all children merged into the same parent
register the same similarity and all similarities are nonnegative, then on
every valid dendrogram with non-increasing leaf-to-root similarities,
GetClustering and GetSubtreeClustering induce the same partition of the
leaves for every threshold. -/
theorem claim_C5_monotone_equivalence (d : ParallelDendrogram)
    (hv : ValidDendrogram d) (hm : MonotonePaths d)
    (hu : UniformMergeSimilarities d) (hn : NonnegativeSimilarities d) (T : ℚ) :
    ∀ i, i < d.num_nodes → ∀ j, j < d.num_nodes →
      ((clusteringUF d T).Find i = (clusteringUF d T).Find j ↔
        (subtreeUF d T).Find i = (subtreeUF d T).Find j) :=
  fun i hi j hj => monotone_partitions_eq hv hm hu hn T hi hj

/-- C5 witness: the monotone equivalence instantiated on the spec's monotone
example dendrogram. -/
theorem claim_C5_witness :
    (clusteringUF exampleDendrogram4 q7o10).Find 0 =
        (clusteringUF exampleDendrogram4 q7o10).Find 1 ↔
      (subtreeUF exampleDendrogram4 q7o10).Find 0 =
        (subtreeUF exampleDendrogram4 q7o10).Find 1 :=
  claim_C5_monotone_equivalence exampleDendrogram4 (by decide) (by decide)
    (by decide) (by decide) q7o10 0 (by decide) 1 (by decide)

/-- C6: a merge edge whose similarity is exactly equal to the threshold T
always passes the threshold test in both algorithms: the raw edge test of
GetClustering and the test applied by GetSubtreeClustering to the
preprocessed similarity of the edge's parent cluster both return true. -/
theorem claim_C6_exact_threshold (d : ParallelDendrogram)
    (hv : ValidDendrogram d) (T : ℚ) :
    ∀ c p, edgeTo d c p → simOf d c = T →
      thresholdTest T (simOf d c) = true ∧
      thresholdTest T (mergeSimilarities d p) = true := by
  intro c p he hsim
  constructor
  · rw [hsim]
    exact thresholdTest_of_le (le_refl T)
  · apply thresholdTest_of_le
    rw [← hsim]
    exact sim_le_mergeSimilarities hv he

/-- C6 witness: the boundary inclusion instantiated on the concrete example
dendrogram with an edge whose similarity equals the threshold. -/
theorem claim_C6_witness :
    thresholdTest q3o10 (simOf exampleDendrogram3 0) = true ∧
    thresholdTest q3o10 (mergeSimilarities exampleDendrogram3 3) = true :=
  claim_C6_exact_threshold exampleDendrogram3 (by decide) q3o10 0 3
    ⟨by decide, rfl⟩ rfl

/-- C7 counterexample: on the fully merged two-leaf dendrogram with both
merge similarities equal to 1, the threshold 1 + 2 ^ (-21) is strictly
greater than the maximum similarity, yet GetClustering does not map every
leaf to itself: the threshold is within the AlmostEquals tolerance of the
similarities, so the edges are still preserved. -/
theorem claim_C7_counterexample :
    ValidDendrogram cexUnit ∧ SingleTree cexUnit ∧
    (∀ x, x < cexUnit.MaxClusterId → stepOf cexUnit x ≠ kInvalidClusterId →
      simOf cexUnit x < qAboveOne) ∧
    cexUnit.GetClustering qAboveOne ≠
      (List.range cexUnit.num_nodes).map (fun i => (i, i)) := by
  decide

/-- C7 amended: on a valid, fully merged dendrogram, a threshold at most
every merge similarity maps all leaves to one common representative, and a
threshold strictly greater than every merge similarity and outside the
AlmostEquals tolerance of every merge similarity maps every leaf to itself. -/
theorem claim_C7_extreme_thresholds (d : ParallelDendrogram)
    (hv : ValidDendrogram d) (hst : SingleTree d) (T : ℚ) :
    ((∀ x, x < d.MaxClusterId → stepOf d x ≠ kInvalidClusterId →
        T ≤ simOf d x) →
      ∀ i, i < d.num_nodes → ∀ j, j < d.num_nodes →
        (clusteringUF d T).Find i = (clusteringUF d T).Find j) ∧
    ((∀ x, x < d.MaxClusterId → stepOf d x ≠ kInvalidClusterId →
        simOf d x < T ∧ AlmostEquals (simOf d x) T = false) →
      d.GetClustering T = (List.range d.num_nodes).map (fun i => (i, i))) := by
  constructor
  · intro hall i hi j hj
    have hnm : d.num_nodes ≤ d.MaxClusterId := by
      have := hv.1
      unfold ParallelDendrogram.MaxClusterId
      omega
    obtain ⟨ri, hri1, hri2, hri3⟩ := exists_root hv (show i < d.MaxClusterId by omega)
    obtain ⟨rj, hrj1, hrj2, hrj3⟩ := exists_root hv (show j < d.MaxClusterId by omega)
    have hreq : ri = rj := singleTree_root_unique hst hri3 hrj3 hri2 hrj2
    subst hreq
    rw [clusteringUF_find_iff hv T i j]
    have hpath : ∀ a r, Anc d a r → Connected (passEdge d T) a r := by
      intro a r har
      apply connected_of_path har
      intro z hz hzr
      have hedge := sanc_edge hzr
      refine ⟨hedge, ?_⟩
      exact thresholdTest_of_le (hall z (edge_bounds hv hedge).1 hedge.1)
    exact (hpath i ri hri1).trans (hpath j ri hrj1).symm
  · intro hall
    apply getClustering_id
    apply clusteringPairs_eq_nil
    intro x hx hstep
    obtain ⟨h1, h2⟩ := hall x hx hstep
    unfold thresholdTest
    rw [h2, decide_eq_false (not_lt.mpr (le_of_lt h1))]
    rfl

/-- C7 witness: both extreme-threshold behaviours instantiated on the
monotone example dendrogram, with thresholds 1/2 and 2. -/
theorem claim_C7_witness :
    (clusteringUF exampleDendrogram4 q1o2).Find 0 =
      (clusteringUF exampleDendrogram4 q1o2).Find 3 ∧
    exampleDendrogram4.GetClustering 2 =
      (List.range exampleDendrogram4.num_nodes).map (fun i => (i, i)) :=
  ⟨(claim_C7_extreme_thresholds exampleDendrogram4 (by decide) (by decide)
      q1o2).1 (by decide) 0 (by decide) 3 (by decide),
    (claim_C7_extreme_thresholds exampleDendrogram4 (by decide) (by decide)
      2).2 (by decide)⟩

/-- C8: MergeToParent fails exactly when the child already has a parent id
other than the sentinel recorded, and on success it writes the pair
(parent, similarity) into the child's slot and changes no other slot; the
check precedes the write, so an existing parent edge is never overwritten. -/
theorem claim_C8_mergeToParent_contract (d : ParallelDendrogram)
    (c p : Nat) (s : ℚ) (hc : c < d.parent_pointers.length) :
    (d.MergeToParent c p s = none ↔
      (d.GetParent c).parent_id ≠ kInvalidClusterId) ∧
    (∀ d2, d.MergeToParent c p s = some d2 →
      d2.GetParent c = ⟨p, s⟩ ∧ ∀ x, x ≠ c → d2.GetParent x = d.GetParent x) := by
  constructor
  · unfold ParallelDendrogram.MergeToParent
    by_cases h : (d.GetParent c).parent_id = kInvalidClusterId
    · rw [if_pos h]
      simp [h]
    · rw [if_neg h]
      simp [h]
  · intro d2 h2
    unfold ParallelDendrogram.MergeToParent at h2
    by_cases h : (d.GetParent c).parent_id = kInvalidClusterId
    · rw [if_pos h, Option.some_inj] at h2
      subst h2
      constructor
      · unfold ParallelDendrogram.GetParent
        dsimp only
        rw [List.getD_eq_getElem?_getD, List.getElem?_set_self hc]
        rfl
      · intro x hx
        unfold ParallelDendrogram.GetParent
        dsimp only
        rw [List.getD_eq_getElem?_getD, List.getD_eq_getElem?_getD,
          List.getElem?_set_ne (fun hcx => hx hcx.symm)]
    · rw [if_neg h] at h2
      exact Option.noConfusion h2

/-- C8 witness: the contract instantiated on a fresh two-node dendrogram. -/
theorem claim_C8_witness :
    emptyDendrogram2.MergeToParent 0 2 q1o2 = none ↔
      (emptyDendrogram2.GetParent 0).parent_id ≠ kInvalidClusterId :=
  (claim_C8_mergeToParent_contract emptyDendrogram2 0 2 q1o2 (by decide)).1

/-- C9: the write-once check of MergeToParent only compares the stored
parent id with the sentinel, so registering the sentinel itself as the
parent of an unset slot succeeds, leaves HasValidParent false, and lets a
later MergeToParent call on the same child succeed again: the slot can be
written twice. -/
theorem claim_C9_sentinel_loophole (d : ParallelDendrogram) (c p2 : Nat)
    (s s2 : ℚ) (hunset : (d.GetParent c).parent_id = kInvalidClusterId)
    (hc : c < d.parent_pointers.length) :
    ∃ d2, d.MergeToParent c kInvalidClusterId s = some d2 ∧
      d2.HasValidParent c = false ∧
      (d2.MergeToParent c p2 s2).isSome = true := by
  refine ⟨{ d with parent_pointers :=
    d.parent_pointers.set c ⟨kInvalidClusterId, s⟩ }, ?_, ?_, ?_⟩
  · unfold ParallelDendrogram.MergeToParent
    rw [if_pos hunset]
  · unfold ParallelDendrogram.HasValidParent ParallelDendrogram.GetParent
    dsimp only
    rw [List.getD_eq_getElem?_getD, List.getElem?_set_self hc]
    simp
  · unfold ParallelDendrogram.MergeToParent ParallelDendrogram.GetParent
    dsimp only
    rw [List.getD_eq_getElem?_getD, List.getElem?_set_self hc]
    simp

/-- C9 witness: the loophole instantiated on a fresh two-node dendrogram. -/
theorem claim_C9_witness :
    ∃ d2, emptyDendrogram2.MergeToParent 0 kInvalidClusterId q1o2 = some d2 ∧
      d2.HasValidParent 0 = false ∧
      (d2.MergeToParent 0 2 q3o10).isSome = true :=
  claim_C9_sentinel_loophole emptyDendrogram2 0 2 q1o2 q3o10 (by decide)
    (by decide)

/-- C10: the preprocessed per-cluster similarity of GetSubtreeClustering is
the fold of max over the incoming child-edge similarities starting from 0;
a cluster all of whose incoming similarities are negative therefore gets
value 0 and passes the threshold test for every threshold at most 0, while
GetClustering unites an edge exactly when the raw (possibly negative) edge
similarity passes the test against the threshold. -/
theorem claim_C10_zero_clamp (d : ParallelDendrogram) (hv : ValidDendrogram d)
    (T : ℚ) (p : Nat) :
    (mergeSimilarities d p = (incomingSims d p).foldl max 0) ∧
    ((∀ s ∈ incomingSims d p, s < 0) → mergeSimilarities d p = 0) ∧
    ((∀ s ∈ incomingSims d p, s < 0) → T ≤ 0 →
      thresholdTest T (mergeSimilarities d p) = true) ∧
    (∀ u v, (u, v) ∈ clusteringPairs d T ↔
      edgeTo d u v ∧ thresholdTest T (simOf d u) = true) := by
  have hzero : (∀ s ∈ incomingSims d p, s < 0) → mergeSimilarities d p = 0 := by
    intro hneg
    rcases mergeSimilarities_cases d p with h0 | ⟨c, hcm, he, hs⟩
    · exact h0
    · exfalso
      have hmem : simOf d c ∈ incomingSims d p :=
        mem_incomingSims.mpr ⟨c, hcm, he.1, he.2, rfl⟩
      have h1 := hneg _ hmem
      have h2 := mergeSimilarities_nonneg d p
      rw [hs] at h1
      linarith
  refine ⟨mergeSimilarities_apply d p, hzero, ?_, ?_⟩
  · intro hneg hT
    rw [hzero hneg]
    exact thresholdTest_of_le hT
  · intro u v
    exact mem_clusteringPairs hv

/-- C10 witness: on the dendrogram whose two child edges into cluster 2 both
carry similarity -1, the preprocessed similarity of cluster 2 passes the
threshold test at threshold -1/2. -/
theorem claim_C10_witness :
    thresholdTest qm1o2 (mergeSimilarities cexNegative 2) = true :=
  (claim_C10_zero_clamp cexNegative (by decide) qm1o2 2).2.2.1 (by decide)
    (by decide)
